import Mathlib

/-!
Verification of the deep-crawl orchestrator of this repository.

The development shallowly embeds the two crawl loops of the code base —
`sequential_deep_crawl` in `backend/profile_crawler.py` and `deep_crawl` in
`backend/minimal_crawler.py` — together with the URL handling they rely on
(`urllib.parse.urlparse` / `urljoin` and the inline normalization of
`minimal_crawler.py`).  Strings are embedded as `List Char`; the page-fetch
collaborator (`crawler.arun`) is embedded as a function from URLs to fetch
results, with a raised exception represented as an explicit result
constructor.  All definitions are executable, so concrete crawl runs can be
evaluated inside proofs.
-/

/-! ### Character helpers

`Char.toLower` in Lean core is exactly ASCII lowercasing (codepoints 65–90
map to 97–122, everything else unchanged), which agrees with Python's
`str.lower` on the ASCII inputs handled below. -/

/-- Valid scheme characters for `urllib.parse`: ASCII letters, digits and
`+`, `-`, `.` (CPython's `scheme_chars`). -/
def isSchemeChar (c : Char) : Bool :=
  c.isAlpha || c.isDigit || c == '+' || c == '-' || c == '.'

theorem charToNatOfNat (n : Nat) (h : n < 55296) : (Char.ofNat n).toNat = n := by
  have hv : n.isValidChar := Or.inl h
  simp only [Char.ofNat, dif_pos hv]
  simp [Char.ofNatAux, Char.toNat, UInt32.toNat, UInt32.ofNatCore]

theorem isUpper_iff (c : Char) : c.isUpper = true ↔ 65 ≤ c.toNat ∧ c.toNat ≤ 90 := by
  simp only [Char.isUpper, Bool.and_eq_true, decide_eq_true_eq]
  exact Iff.rfl

theorem isLower_iff (c : Char) : c.isLower = true ↔ 97 ≤ c.toNat ∧ c.toNat ≤ 122 := by
  simp only [Char.isLower, Bool.and_eq_true, decide_eq_true_eq]
  exact Iff.rfl

theorem isDigit_iff (c : Char) : c.isDigit = true ↔ 48 ≤ c.toNat ∧ c.toNat ≤ 57 := by
  simp only [Char.isDigit, Bool.and_eq_true, decide_eq_true_eq]
  exact Iff.rfl

theorem toLower_of_upper (c : Char) (h : 65 ≤ c.toNat ∧ c.toNat ≤ 90) :
    (Char.toLower c).toNat = c.toNat + 32 := by
  simp only [Char.toLower, if_pos h]
  exact charToNatOfNat _ (by omega)

theorem toLower_of_not_upper (c : Char) (h : ¬ (65 ≤ c.toNat ∧ c.toNat ≤ 90)) :
    Char.toLower c = c := by
  simp only [Char.toLower, if_neg h]

theorem toLower_isLower_of_upper (c : Char) (h : 65 ≤ c.toNat ∧ c.toNat ≤ 90) :
    (Char.toLower c).isLower = true := by
  rw [isLower_iff, toLower_of_upper c h]; omega

theorem isAlpha_toLower (c : Char) (h : c.isAlpha = true) :
    (Char.toLower c).isAlpha = true := by
  simp only [Char.isAlpha, Bool.or_eq_true] at h ⊢
  rcases h with h | h
  · right; exact toLower_isLower_of_upper c ((isUpper_iff c).mp h)
  · right
    rw [isLower_iff] at h
    rw [toLower_of_not_upper c (by omega)]
    exact (isLower_iff c).mpr h

theorem isSchemeChar_toLower (c : Char) (h : isSchemeChar c = true) :
    isSchemeChar (Char.toLower c) = true := by
  simp only [isSchemeChar, Bool.or_eq_true, beq_iff_eq] at h ⊢
  rcases h with (((h | h) | h) | h) | h
  · left; left; left; left; exact isAlpha_toLower c h
  · left; left; left; right
    rw [isDigit_iff] at h
    rw [toLower_of_not_upper c (by omega)]
    exact (isDigit_iff c).mpr h
  · left; left; right
    rw [toLower_of_not_upper c (by rw [h]; decide)]
    exact h
  · left; right
    rw [toLower_of_not_upper c (by rw [h]; decide)]
    exact h
  · right
    rw [toLower_of_not_upper c (by rw [h]; decide)]
    exact h

theorem toLower_toLower (c : Char) : Char.toLower (Char.toLower c) = Char.toLower c := by
  by_cases h : 65 ≤ c.toNat ∧ c.toNat ≤ 90
  · have h2 := toLower_of_upper c h
    apply toLower_of_not_upper
    omega
  · rw [toLower_of_not_upper c h, toLower_of_not_upper c h]

theorem isSchemeChar_ne_colon (c : Char) (h : isSchemeChar c = true) : c ≠ ':' := by
  intro he; rw [he] at h; simp [isSchemeChar] at h

/-! ### List splitting helpers

These mirror the string primitives `urllib.parse` is built from:
`str.find` + slicing at the first occurrence of a separator
(`url.split(sep, 1)`), scanning a net-location up to the first of `/?#`,
and `str.rfind`. -/

/-- Split a list at the first occurrence of `c` (the occurrence is dropped),
`none` when `c` does not occur.  Mirrors Python's `s.split(c, 1)` when `c`
occurs, or `s.find(c)` returning `-1` when it does not. -/
def splitAtFirst (c : Char) : List Char → Option (List Char × List Char)
  | [] => none
  | x :: xs =>
    if x = c then some ([], xs)
    else match splitAtFirst c xs with
      | none => none
      | some (a, b) => some (x :: a, b)

/-- Split a list at the last occurrence of `c` (cf. `str.rfind`). -/
def splitAtLast (c : Char) (l : List Char) : Option (List Char × List Char) :=
  match splitAtFirst c l.reverse with
  | none => none
  | some (a, b) => some (b.reverse, a.reverse)

/-- Delimiters ending the net-location part of a URL (`'/?#'` in
CPython's `_splitnetloc`). -/
def isNetlocDelim (c : Char) : Bool :=
  c == '/' || c == '?' || c == '#'

/-- Scan up to the first net-location delimiter: `_splitnetloc` minus the
leading `'//'` (which the caller strips). -/
def splitHostDelim : List Char → List Char × List Char
  | [] => ([], [])
  | x :: xs =>
    if isNetlocDelim x then ([], x :: xs)
    else
      let p := splitHostDelim xs
      (x :: p.1, p.2)

theorem splitAtFirst_eq_none {c : Char} {l : List Char} :
    splitAtFirst c l = none ↔ c ∉ l := by
  induction l with
  | nil => simp [splitAtFirst]
  | cons x xs ih =>
    simp only [splitAtFirst, List.mem_cons]
    by_cases hx : x = c
    · simp [hx]
    · rw [if_neg hx]
      cases hs : splitAtFirst c xs with
      | none =>
        simp only [true_iff]
        push_neg
        exact ⟨fun h => hx h.symm, ih.mp hs⟩
      | some p =>
        obtain ⟨a, b⟩ := p
        have hmem : c ∈ xs := by
          by_contra hno
          rw [ih.mpr hno] at hs
          exact Option.noConfusion hs
        simp [hmem]

theorem splitAtFirst_eq_some {c : Char} {l a b : List Char}
    (h : splitAtFirst c l = some (a, b)) : l = a ++ c :: b ∧ c ∉ a := by
  induction l generalizing a with
  | nil => simp [splitAtFirst] at h
  | cons x xs ih =>
    by_cases hx : x = c
    · simp only [splitAtFirst, if_pos hx] at h
      cases h
      subst hx
      simp
    · simp only [splitAtFirst, if_neg hx] at h
      cases hs : splitAtFirst c xs with
      | none => rw [hs] at h; simp at h
      | some p =>
        rw [hs] at h
        obtain ⟨a', b'⟩ := p
        simp only [Option.some.injEq, Prod.mk.injEq] at h
        obtain ⟨ha, hb⟩ := h
        obtain ⟨he, hm⟩ := ih (by rw [hs, hb])
        subst ha hb
        constructor
        · rw [List.cons_append, he]
        · simp only [List.mem_cons]
          rintro (h1 | h2)
          · exact hx h1.symm
          · exact hm h2

theorem splitAtFirst_append {c : Char} {a b : List Char} (h : c ∉ a) :
    splitAtFirst c (a ++ c :: b) = some (a, b) := by
  induction a with
  | nil => simp [splitAtFirst]
  | cons x xs ih =>
    simp only [List.mem_cons, not_or] at h
    rw [List.cons_append]
    simp only [splitAtFirst]
    rw [if_neg (fun he => h.1 he.symm), ih h.2]

theorem listPrefRfl (l : List Char) : l <+: l := ⟨[], List.append_nil l⟩

theorem splitAtLast_eq_some {c : Char} {l a b : List Char}
    (h : splitAtLast c l = some (a, b)) : l = a ++ c :: b ∧ c ∉ b := by
  unfold splitAtLast at h
  cases hs : splitAtFirst c l.reverse with
  | none => rw [hs] at h; exact Option.noConfusion h
  | some p =>
    obtain ⟨a', b'⟩ := p
    rw [hs] at h
    simp only [Option.some.injEq, Prod.mk.injEq] at h
    obtain ⟨ha, hb⟩ := h
    obtain ⟨he, hm⟩ := splitAtFirst_eq_some hs
    subst ha hb
    constructor
    · have := congrArg List.reverse he
      simpa [List.reverse_append] using this
    · simpa using hm

theorem splitAtLast_eq_none {c : Char} {l : List Char} :
    splitAtLast c l = none ↔ c ∉ l := by
  unfold splitAtLast
  cases hs : splitAtFirst c l.reverse with
  | none =>
    have := splitAtFirst_eq_none.mp hs
    simp only [List.mem_reverse] at this
    simp [this]
  | some p =>
    obtain ⟨a', b'⟩ := p
    have : c ∈ l.reverse := by
      by_contra hno
      rw [splitAtFirst_eq_none.mpr hno] at hs
      exact Option.noConfusion hs
    simp only [List.mem_reverse] at this
    simp [this]

theorem splitAtLast_append {c : Char} {a b : List Char} (h : c ∉ b) :
    splitAtLast c (a ++ c :: b) = some (a, b) := by
  unfold splitAtLast
  have hrev : (a ++ c :: b).reverse = b.reverse ++ c :: a.reverse := by
    simp [List.reverse_append, List.reverse_cons, List.append_assoc]
  rw [hrev, splitAtFirst_append (by simpa using h)]
  simp

theorem splitHostDelim_append {a b : List Char}
    (ha : ∀ c ∈ a, isNetlocDelim c = false)
    (hb : b = [] ∨ ∃ c t, b = c :: t ∧ isNetlocDelim c = true) :
    splitHostDelim (a ++ b) = (a, b) := by
  induction a with
  | nil =>
    rcases hb with rfl | ⟨c, t, rfl, hc⟩
    · simp [splitHostDelim]
    · simp [splitHostDelim, hc]
  | cons x xs ih =>
    have hx := ha x (by simp)
    rw [List.cons_append]
    simp only [splitHostDelim, hx]
    rw [ih (fun c hc => ha c (by simp [hc]))]
    simp

theorem splitHostDelim_fst_no_delim {l : List Char} :
    ∀ c ∈ (splitHostDelim l).1, isNetlocDelim c = false := by
  induction l with
  | nil => simp [splitHostDelim]
  | cons x xs ih =>
    intro c hc
    by_cases hx : isNetlocDelim x
    · simp [splitHostDelim, hx] at hc
    · simp only [Bool.not_eq_true] at hx
      simp only [splitHostDelim, hx, Bool.false_eq_true, if_false, List.mem_cons] at hc
      rcases hc with rfl | hc
      · exact hx
      · exact ih c hc

theorem splitHostDelim_eq (l : List Char) :
    l = (splitHostDelim l).1 ++ (splitHostDelim l).2 := by
  induction l with
  | nil => simp [splitHostDelim]
  | cons x xs ih =>
    by_cases hx : isNetlocDelim x
    · simp [splitHostDelim, hx]
    · simp only [Bool.not_eq_true] at hx
      simp only [splitHostDelim, hx, Bool.false_eq_true, if_false]
      rw [List.cons_append]
      exact congrArg (x :: ·) ih

theorem splitHostDelim_snd (l : List Char) :
    (splitHostDelim l).2 = [] ∨
      ∃ c t, (splitHostDelim l).2 = c :: t ∧ isNetlocDelim c = true := by
  induction l with
  | nil => simp [splitHostDelim]
  | cons x xs ih =>
    by_cases hx : isNetlocDelim x
    · right; exact ⟨x, xs, by simp [splitHostDelim, hx], hx⟩
    · simp only [Bool.not_eq_true] at hx
      simpa only [splitHostDelim, hx, Bool.false_eq_true, if_false] using ih

/-! ### `urllib.parse.urlparse`

Embedding of CPython's `urlsplit`/`urlparse` (`Lib/urllib/parse.py`),
restricted to the pieces the crawlers use: the six named components.
The WHATWG control-character/whitespace stripping added as a security
hardening in recent CPython is not modelled (all URLs handled in this
development are free of control characters), and the bracket-validation
of IPv6 net-locations (which raises `ValueError`) is not modelled. -/

/-- The `(scheme, netloc, path, params, query, fragment)` named tuple
returned by `urllib.parse.urlparse`. -/
structure ParseResult where
  scheme : List Char
  netloc : List Char
  path : List Char
  params : List Char
  query : List Char
  fragment : List Char
deriving Repr, DecidableEq

/-- CPython's scheme validity test: the part before the first `':'` is a
scheme when it is non-empty, starts with an ASCII letter, and consists of
`scheme_chars` only. -/
def validScheme (pre : List Char) : Bool :=
  match pre with
  | [] => false
  | c :: _ => c.isAlpha && pre.all isSchemeChar

/-- Scheme extraction of `urlsplit`: split at the first `':'` when the
prefix is a valid scheme (lower-cased), otherwise fall back to the
`scheme` argument (the default). -/
def splitScheme (defaultScheme url : List Char) : List Char × List Char :=
  match splitAtFirst ':' url with
  | some (pre, post) =>
    if validScheme pre then (pre.map Char.toLower, post)
    else (defaultScheme, url)
  | none => (defaultScheme, url)

/-- Net-location extraction of `urlsplit`: only when the remainder starts
with `'//'` (`url[:2] == '//'`), scanning up to the first of `'/?#'`. -/
def splitNetloc (url : List Char) : List Char × List Char :=
  if url.take 2 = ['/', '/'] then splitHostDelim (url.drop 2) else ([], url)

/-- Fragment extraction: `url.split('#', 1)` when `'#'` occurs. -/
def splitFragment (url : List Char) : List Char × List Char :=
  match splitAtFirst '#' url with
  | some (a, b) => (a, b)
  | none => (url, [])

/-- Query extraction: `url.split('?', 1)` when `'?'` occurs. -/
def splitQuery (url : List Char) : List Char × List Char :=
  match splitAtFirst '?' url with
  | some (a, b) => (a, b)
  | none => (url, [])

/-- `urllib.parse.urlsplit(url, scheme=defaultScheme)` (with
`allow_fragments=True`): scheme, then netloc, then fragment, then query;
the `params` field of the result is empty. -/
def urlsplit (defaultScheme url : List Char) : ParseResult :=
  let sp := splitScheme defaultScheme url
  let np := splitNetloc sp.2
  let fp := splitFragment np.2
  let qp := splitQuery fp.1
  ⟨sp.1, np.1, qp.1, [], qp.2, fp.2⟩

/-- CPython's `_splitparams`: split the path at the first `';'` of its last
segment (at the first `';'` at all when the path has no `'/'`); only called
when `';' in path`. -/
def splitParams (path : List Char) : List Char × List Char :=
  match splitAtLast '/' path with
  | some (pre, lastSeg) =>
    match splitAtFirst ';' lastSeg with
    | some (a, b) => (pre ++ '/' :: a, b)
    | none => (path, [])
  | none =>
    match splitAtFirst ';' path with
    | some (a, b) => (a, b)
    | none => (path, [])

/-- `urllib.parse.urlparse(url, scheme=defaultScheme)`: `urlsplit` plus the
params split of the path (guarded by `';' in path`). -/
def urlparse (defaultScheme url : List Char) : ParseResult :=
  let r := urlsplit defaultScheme url
  if ';' ∈ r.path then
    let pp := splitParams r.path
    { r with path := pp.1, params := pp.2 }
  else r

/-- The inline URL normalization of `minimal_crawler.py` (`deep_crawl`,
lines 161–164): parse, then rebuild as
`f"{scheme}://{netloc}{path}"` plus `f"?{query}"` only when the query is
non-empty.  The fragment (and any path params) are dropped. -/
def normalize_url (u : List Char) : List Char :=
  let parsed := urlparse [] u
  parsed.scheme ++ ':' :: '/' :: '/' ::
    (parsed.netloc ++ parsed.path ++
      (if parsed.query = [] then [] else '?' :: parsed.query))

/-! ### `urllib.parse.urljoin`

Embedding of CPython's `urlunsplit`/`urlunparse`/`urljoin`
(`Lib/urllib/parse.py`).  These are used by both crawl loops to resolve a
discovered `href` against the page it was found on. -/

/-- Schemes in CPython's `uses_relative` list. -/
def usesRelative : List (List Char) :=
  ["", "ftp", "http", "gopher", "nntp", "imap", "wais", "file", "https",
   "shttp", "mms", "prospero", "rtsp", "rtspu", "sftp", "svn", "svn+ssh",
   "ws", "wss"].map String.toList

/-- Schemes in CPython's `uses_netloc` list. -/
def usesNetloc : List (List Char) :=
  ["", "ftp", "http", "gopher", "nntp", "telnet", "imap", "wais", "file",
   "mms", "https", "shttp", "snews", "prospero", "rtsp", "rtspu", "rsync",
   "svn", "svn+ssh", "sftp", "nfs", "git", "git+ssh", "ws", "wss",
   "itms-services"].map String.toList

/-- `urllib.parse.urlunsplit((scheme, netloc, url, query, fragment))`. -/
def urlunsplit (scheme netloc url query fragment : List Char) : List Char :=
  let url :=
    if netloc ≠ [] ∨ (url ≠ [] ∧ url.take 2 = ['/', '/']) then
      '/' :: '/' :: netloc ++ (if url ≠ [] ∧ url.take 1 ≠ ['/'] then '/' :: url else url)
    else url
  let url := if scheme ≠ [] then scheme ++ ':' :: url else url
  let url := if query ≠ [] then url ++ '?' :: query else url
  if fragment ≠ [] then url ++ '#' :: fragment else url

/-- `urllib.parse.urlunparse((scheme, netloc, url, params, query, fragment))`. -/
def urlunparse (scheme netloc url params query fragment : List Char) : List Char :=
  let url := if params ≠ [] then url ++ ';' :: params else url
  urlunsplit scheme netloc url query fragment

/-- The dot-segment resolution loop of `urljoin`: `'..'` pops the
accumulated list (a pop on an empty list is ignored), `'.'` is skipped,
anything else is appended. -/
def resolveSegments (segments : List (List Char)) : List (List Char) :=
  segments.foldl
    (fun acc seg =>
      if seg = ['.', '.'] then acc.dropLast
      else if seg = ['.'] then acc
      else acc ++ [seg])
    []

/-- `urllib.parse.urljoin(base, url)` (with `allow_fragments=True`). -/
def urljoin (base url : List Char) : List Char :=
  if base = [] then url
  else if url = [] then base
  else
    let b := urlparse [] base
    let r := urlparse b.scheme url
    if r.scheme ≠ b.scheme ∨ r.scheme ∉ usesRelative then url
    else
      let netloc :=
        if r.scheme ∈ usesNetloc ∧ r.netloc ≠ [] then r.netloc else
        if r.scheme ∈ usesNetloc then b.netloc else r.netloc
      if r.scheme ∈ usesNetloc ∧ r.netloc ≠ [] then
        urlunparse r.scheme r.netloc r.path r.params r.query r.fragment
      else if r.path = [] ∧ r.params = [] then
        let query := if r.query = [] then b.query else r.query
        urlunparse r.scheme netloc b.path b.params query r.fragment
      else
        let baseParts :=
          let bp := List.splitOn '/' b.path
          if bp.getLast? ≠ some [] then bp.dropLast else bp
        let segments :=
          if r.path.take 1 = ['/'] then List.splitOn '/' r.path
          else
            let segs := baseParts ++ List.splitOn '/' r.path
            -- segments[1:-1] = filter(None, segments[1:-1])
            match segs with
            | [] => []
            | s0 :: rest =>
              match rest.getLast? with
              | none => [s0]
              | some last => s0 :: ((rest.dropLast.filter (· ≠ [])) ++ [last])
        let resolved := resolveSegments segments
        let resolved :=
          if segments.getLast? = some ['.'] ∨ segments.getLast? = some ['.', '.'] then
            resolved ++ [[]]
          else resolved
        let joined := List.intercalate ['/'] resolved
        let joined := if joined = [] then ['/'] else joined
        urlunparse r.scheme netloc joined r.params r.query r.fragment

/-! ### Scoring and text helpers -/

/-- Python's substring containment `needle in hay` (contiguous). -/
def containsSub (needle : List Char) : List Char → Bool
  | [] => needle.isEmpty
  | c :: t => needle.isPrefixOf (c :: t) || containsSub needle t

/-- Helper for `pyCount`: non-overlapping left-to-right count of a
*non-empty* pattern (after a match the scan resumes past it). -/
def pyCountGo (sub : List Char) : List Char → Nat
  | [] => 0
  | c :: rest =>
    if sub.isPrefixOf (c :: rest) then 1 + pyCountGo sub (rest.drop (sub.length - 1))
    else pyCountGo sub rest
termination_by l => l.length
decreasing_by
  all_goals simp only [List.length_drop, List.length_cons]
  all_goals omega

/-- Python's `str.count(sub)`: non-overlapping occurrences; an empty
pattern counts `len + 1`. -/
def pyCount (sub s : List Char) : Nat :=
  if sub = [] then s.length + 1 else pyCountGo sub s

/-- Page relevance score of `sequential_deep_crawl` (lines 226–231):
`sum(text_lower.count(k.lower()) for k in keywords)` over the lower-cased
markdown, computed only when both `keywords` and `result.markdown` are
truthy (a `None` markdown is embedded as the empty list). -/
def pageScore (keywords : List (List Char)) (markdown : List Char) : Nat :=
  if keywords ≠ [] ∧ markdown ≠ [] then
    (keywords.map (fun k => pyCount (k.map Char.toLower) (markdown.map Char.toLower))).sum
  else 0

/-- Python's `s.strip()` restricted to ASCII whitespace. -/
def isPyWhitespace (c : Char) : Bool :=
  c == ' ' || c == '\t' || c == '\n' || c == '\r' || c == '\x0b' || c == '\x0c'

/-- `str.strip()` (ASCII whitespace). -/
def pyStrip (s : List Char) : List Char :=
  ((s.dropWhile isPyWhitespace).reverse.dropWhile isPyWhitespace).reverse

/-- Matching of a compiled URL pattern against a prefix of the text, as
`re.match` does for the translated glob `pattern.replace('*', '.*')` of
`sequential_deep_crawl`.  A `'*'` in the pattern stands for the translated
`'.*'` (any characters); every other pattern character is taken literally,
so this models patterns that contain no further regex metacharacters
(which is how the crawler's glob patterns such as `*/docs/*` behave). -/
def reMatch : List Char → List Char → Bool
  | [], _ => true
  | '*' :: ps, t =>
    reMatch ps t ||
      (match t with
       | [] => false
       | _ :: ts => reMatch ('*' :: ps) ts)
  | p :: ps, t =>
    match t with
    | [] => false
    | c :: ts => p == c && reMatch ps ts
termination_by p t => (p.length, t.length)

/-! ### The sequential deep crawl of `profile_crawler.py`

`sequential_deep_crawl` (lines 145–319), with `process_result` folded in:
for the results this loop constructs, `process_result` appends the result
to `successful_pages` (recording url/depth/score) when `success` is true
and appends `{url, error, depth}` to `failed_pages` otherwise.  The
`pages_by_depth` grouping is derivable from the success list and is not
modelled separately.  The fetch collaborator `crawler.arun` is a function
from a URL to a `FetchResult`; a raised exception is the `raised`
constructor (recorded with `str(e)`), a returned result with
`success == False` is `failed` (recorded with
`result.error_message or 'Unknown error'`). -/

/-- Crawl strategies accepted by the CLI (`--strategy`). -/
inductive Strategy where
  | bfs
  | dfs
  | bestFirst
deriving Repr, DecidableEq

/-- One entry of `result.links['internal']` / `result.links['external']`:
the `href` and anchor `text` fields the loop reads. -/
structure LinkData where
  href : List Char
  text : List Char
deriving Repr, DecidableEq

/-- The fields of a successful `crawler.arun` result that
`sequential_deep_crawl` consumes. -/
structure PageData where
  markdown : List Char
  linksInternal : List LinkData
  linksExternal : List LinkData
deriving Repr, DecidableEq

/-- Outcome of one `crawler.arun` call. -/
inductive FetchResult where
  | ok (page : PageData)
  | failed (errorMessage : List Char)
  | raised (message : List Char)
deriving Repr, DecidableEq

/-- Configuration of `sequential_deep_crawl` (its keyword parameters).
`keywords = []` and `patterns = []` embed Python's `None` (both are only
ever truthiness-tested).  Patterns are already in translated form (see
`reMatch`). -/
structure CrawlConfig where
  strategy : Strategy
  maxDepth : Nat
  maxPages : Nat
  keywords : List (List Char)
  patterns : List (List Char)
  domainRestrict : Bool
deriving Repr, DecidableEq

/-- A successful page as recorded by `process_result`:
URL, depth and score from `result.metadata`. -/
structure PageRec where
  url : List Char
  depth : Nat
  score : Nat
deriving Repr, DecidableEq

/-- A failed page as recorded by `process_result`:
`{'url': ..., 'error': ..., 'depth': ...}`. -/
structure FailRec where
  url : List Char
  error : List Char
  depth : Nat
deriving Repr, DecidableEq

/-- The mutable state of the sequential crawl loop. -/
structure CrawlState where
  queue : List (List Char × Nat)
  visited : List (List Char)
  successes : List PageRec
  failures : List FailRec
  pagesCrawled : Nat
deriving Repr, DecidableEq

/-- `result.error_message or 'Unknown error'` (line 288); an
`error_message` of `None` or `''` is embedded as `[]`. -/
def errOr (msg : List Char) : List Char :=
  if msg = [] then "Unknown error".toList else msg

/-- Link filtering and queueing of `sequential_deep_crawl`
(lines 245–282), for one `link_data` entry, acting on the queue:
skip empty hrefs, resolve with `urljoin`, skip visited, apply the domain
filter (`domain_restrict and base_domain`), apply the pattern filter
(at least one match required when patterns are configured), then insert
per strategy — append for `bfs`, insert at the head for `dfs`, and for
`best-first` *with* keywords insert at the head when the anchor-text
score is positive and append otherwise.  Any other combination (in
particular `best-first` without keywords) falls through the `if/elif`
chain and the link is not queued. -/
def enqueueLink (cfg : CrawlConfig) (baseDomain currentUrl : List Char)
    (currentDepth : Nat) (visited : List (List Char))
    (queue : List (List Char × Nat)) (link : LinkData) : List (List Char × Nat) :=
  if link.href = [] then queue
  else
    let absoluteUrl := urljoin currentUrl link.href
    if absoluteUrl ∈ visited then queue
    else if cfg.domainRestrict ∧ baseDomain ≠ [] ∧
        (urlparse [] absoluteUrl).netloc ≠ baseDomain then queue
    else if cfg.patterns ≠ [] ∧ ¬ cfg.patterns.any (fun p => reMatch p absoluteUrl) then queue
    else
      match cfg.strategy with
      | .bfs => queue ++ [(absoluteUrl, currentDepth + 1)]
      | .dfs => (absoluteUrl, currentDepth + 1) :: queue
      | .bestFirst =>
        if cfg.keywords ≠ [] then
          let linkText := link.text.map Char.toLower
          let linkScore :=
            (cfg.keywords.filter (fun k => containsSub (k.map Char.toLower) linkText)).length
          if linkScore > 0 then (absoluteUrl, currentDepth + 1) :: queue
          else queue ++ [(absoluteUrl, currentDepth + 1)]
        else queue

/-- The main loop of `sequential_deep_crawl` (lines 202–306), fuelled.
`while url_queue and pages_crawled < max_pages`: pop the head; skip when
visited or beyond `max_depth`; otherwise mark visited, fetch, and either
record a success (incrementing `pages_crawled` and, when
`current_depth < max_depth`, extracting/queueing links — iterating the
possibly empty link lists absorbs the `result.links` truthiness test) or
record a failure.  The delay (lines 304–306) and the result persistence
after the loop have no effect on this state. -/
def crawlLoop (cfg : CrawlConfig) (web : List Char → FetchResult)
    (baseDomain : List Char) : Nat → CrawlState → CrawlState
  | 0, st => st
  | fuel + 1, st =>
    match st.queue with
    | [] => st
    | (currentUrl, currentDepth) :: rest =>
      if st.pagesCrawled < cfg.maxPages then
        if currentUrl ∈ st.visited ∨ currentDepth > cfg.maxDepth then
          crawlLoop cfg web baseDomain fuel { st with queue := rest }
        else
          let visited := st.visited ++ [currentUrl]
          match web currentUrl with
          | .ok page =>
            let score := pageScore cfg.keywords page.markdown
            let successes := st.successes ++ [⟨currentUrl, currentDepth, score⟩]
            let allLinks :=
              page.linksInternal ++ (if cfg.domainRestrict then [] else page.linksExternal)
            let queue :=
              if currentDepth < cfg.maxDepth then
                allLinks.foldl (enqueueLink cfg baseDomain currentUrl currentDepth visited) rest
              else rest
            crawlLoop cfg web baseDomain fuel
              ⟨queue, visited, successes, st.failures, st.pagesCrawled + 1⟩
          | .failed msg =>
            crawlLoop cfg web baseDomain fuel
              ⟨rest, visited, st.successes,
               st.failures ++ [⟨currentUrl, errOr msg, currentDepth⟩], st.pagesCrawled⟩
          | .raised msg =>
            crawlLoop cfg web baseDomain fuel
              ⟨rest, visited, st.successes,
               st.failures ++ [⟨currentUrl, msg, currentDepth⟩], st.pagesCrawled⟩
      else st

/-- `sequential_deep_crawl(url, ...)`: seed the queue with `(url, 0)`,
compute `base_domain = urlparse(url).netloc if domain_restrict else None`,
and run the loop. -/
def sequential_deep_crawl (cfg : CrawlConfig) (web : List Char → FetchResult)
    (seedUrl : List Char) (fuel : Nat) : CrawlState :=
  let baseDomain := if cfg.domainRestrict then (urlparse [] seedUrl).netloc else []
  crawlLoop cfg web baseDomain fuel ⟨[(seedUrl, 0)], [], [], [], 0⟩

/-- The URLs of all recorded `PageResult`s of a run, successes then
failures. -/
def recordedUrls (st : CrawlState) : List (List Char) :=
  st.successes.map PageRec.url ++ st.failures.map FailRec.url

/-! ### The deep crawl of `minimal_crawler.py`

`deep_crawl` (lines 50–220).  The fetch collaborator is again a function
from a URL to an outcome; the fields consumed on success are the raw
`html` (truthiness-tested before link extraction), the hrefs BeautifulSoup
finds on `soup.find_all('a', href=True)`, and the hrefs the ClickUp
navigation selectors would return (`soup.select(...)`, lines 175–186);
both href lists are collaborator output.  Failures and exceptions only
print, so they leave no record beyond the visited mark and the attempt
count. -/

/-- Collaborator data for one successfully fetched page of
`minimal_crawler.deep_crawl`. -/
structure MinPage where
  html : List Char
  anchorHrefs : List (List Char)
  navHrefs : List (List Char)
deriving Repr, DecidableEq

/-- Outcome of one `crawler.arun` call in `minimal_crawler.py`. -/
inductive MinFetchResult where
  | ok (page : MinPage)
  | failed (errorMessage : List Char)
  | raised (message : List Char)
deriving Repr, DecidableEq

/-- State of `minimal_crawler.deep_crawl`: the queue, the visited set, the
pages saved to disk (url and depth; saving happens exactly on success,
lines 128–138) and `pages_crawled`. -/
structure MinState where
  queue : List (List Char × Nat)
  visited : List (List Char)
  savedPages : List (List Char × Nat)
  pagesCrawled : Nat
deriving Repr, DecidableEq

/-- Processing of one regular anchor href (lines 151–170): strip; skip
empty, fragment-only and `javascript:` hrefs; resolve and normalize; keep
only same-domain links not yet visited and not already queued from this
page (`unique_links`).  The accumulator is
`(unique_links, queue, links_found)`. -/
def minProcessHref (baseDomain currentUrl : List Char) (depth : Nat)
    (visited : List (List Char))
    (acc : List (List Char) × List (List Char × Nat) × Nat)
    (rawHref : List Char) : List (List Char) × List (List Char × Nat) × Nat :=
  let href := pyStrip rawHref
  if href = [] ∨ href.take 1 = ['#'] ∨ "javascript:".toList.isPrefixOf href then acc
  else
    let absoluteUrl := urljoin currentUrl href
    let parsed := urlparse [] absoluteUrl
    let normalizedUrl := normalize_url absoluteUrl
    if parsed.netloc = baseDomain ∧ normalizedUrl ∉ acc.1 ∧ normalizedUrl ∉ visited then
      (acc.1 ++ [normalizedUrl], acc.2.1 ++ [(normalizedUrl, depth + 1)], acc.2.2 + 1)
    else acc

/-- Processing of one ClickUp-navigation href (lines 183–195): strip; skip
empty and fragment-only hrefs (no `javascript:` test here); resolve; the
normalized form here drops the query (line 190); keep same-domain links
not yet visited (no `unique_links` test here, though the link is added to
it). -/
def minProcessNavHref (baseDomain currentUrl : List Char) (depth : Nat)
    (visited : List (List Char))
    (acc : List (List Char) × List (List Char × Nat) × Nat)
    (rawHref : List Char) : List (List Char) × List (List Char × Nat) × Nat :=
  let href := pyStrip rawHref
  if href = [] ∨ href.take 1 = ['#'] then acc
  else
    let absoluteUrl := urljoin currentUrl href
    let parsed := urlparse [] absoluteUrl
    let normalizedUrl :=
      parsed.scheme ++ ':' :: '/' :: '/' :: (parsed.netloc ++ parsed.path)
    if parsed.netloc = baseDomain ∧ normalizedUrl ∉ visited then
      (acc.1 ++ [normalizedUrl], acc.2.1 ++ [(normalizedUrl, depth + 1)], acc.2.2 + 1)
    else acc

/-- The main loop of `minimal_crawler.deep_crawl` (lines 101–210),
fuelled.  `while queue and pages_crawled < max_pages`: pop the head; skip
when visited or beyond `max_depth`; otherwise mark visited, count the
attempt (`pages_crawled += 1` happens *before* the fetch), fetch, and on
success save the page and — when `depth < max_depth` and the result
carries html — extract and queue links (the ClickUp fallback fires only
when the base domain contains `"clickup"` and no regular link was found).
Failures and exceptions only print. -/
def minLoop (maxDepth maxPages : Nat) (web : List Char → MinFetchResult)
    (baseDomain : List Char) : Nat → MinState → MinState
  | 0, st => st
  | fuel + 1, st =>
    match st.queue with
    | [] => st
    | (currentUrl, depth) :: rest =>
      if st.pagesCrawled < maxPages then
        if currentUrl ∈ st.visited ∨ depth > maxDepth then
          minLoop maxDepth maxPages web baseDomain fuel { st with queue := rest }
        else
          let visited := st.visited ++ [currentUrl]
          let pagesCrawled := st.pagesCrawled + 1
          match web currentUrl with
          | .ok page =>
            let savedPages := st.savedPages ++ [(currentUrl, depth)]
            let queue :=
              if depth < maxDepth ∧ page.html ≠ [] then
                let acc1 := page.anchorHrefs.foldl
                  (minProcessHref baseDomain currentUrl depth visited) ([], rest, 0)
                let acc2 :=
                  if containsSub "clickup".toList (baseDomain.map Char.toLower) ∧
                      acc1.2.2 = 0 then
                    page.navHrefs.foldl
                      (minProcessNavHref baseDomain currentUrl depth visited) acc1
                  else acc1
                acc2.2.1
              else rest
            minLoop maxDepth maxPages web baseDomain fuel
              ⟨queue, visited, savedPages, pagesCrawled⟩
          | .failed _ =>
            minLoop maxDepth maxPages web baseDomain fuel
              ⟨rest, visited, st.savedPages, pagesCrawled⟩
          | .raised _ =>
            minLoop maxDepth maxPages web baseDomain fuel
              ⟨rest, visited, st.savedPages, pagesCrawled⟩
      else st

/-- `minimal_crawler.deep_crawl(url, ...)`: seed the queue with
`(url, 0)`, compute `base_domain = urlparse(url).netloc`, run the loop. -/
def deep_crawl (maxDepth maxPages : Nat) (web : List Char → MinFetchResult)
    (seedUrl : List Char) (fuel : Nat) : MinState :=
  minLoop maxDepth maxPages web (urlparse [] seedUrl).netloc fuel
    ⟨[(seedUrl, 0)], [], [], 0⟩

/-! ### Invariants of the sequential crawl loop -/

theorem crawlLoop_recorded_mono (cfg : CrawlConfig) (web : List Char → FetchResult)
    (bd : List Char) : ∀ (fuel : Nat) (st : CrawlState) (u : List Char),
    u ∈ recordedUrls st → u ∈ recordedUrls (crawlLoop cfg web bd fuel st) := by
  intro fuel
  induction fuel with
  | zero => intro st u h; simpa [crawlLoop] using h
  | succ n ih =>
    intro st u h
    rw [crawlLoop]
    cases hq : st.queue with
    | nil => exact h
    | cons hd rest =>
      obtain ⟨cu, cd⟩ := hd
      dsimp only
      by_cases hp : st.pagesCrawled < cfg.maxPages
      · rw [if_pos hp]
        by_cases hv : cu ∈ st.visited ∨ cd > cfg.maxDepth
        · rw [if_pos hv]
          exact ih _ u h
        · rw [if_neg hv]
          cases hw : web cu with
          | ok page =>
            apply ih
            simp only [recordedUrls, List.map_append, List.mem_append] at h ⊢
            rcases h with h | h
            · left; simp [h]
            · right; exact h
          | failed msg =>
            apply ih
            simp only [recordedUrls, List.map_append, List.mem_append] at h ⊢
            rcases h with h | h
            · left; exact h
            · right; simp [h]
          | raised msg =>
            apply ih
            simp only [recordedUrls, List.map_append, List.mem_append] at h ⊢
            rcases h with h | h
            · left; exact h
            · right; simp [h]
      · rw [if_neg hp]
        exact h

/-- The de-duplication invariant of the sequential loop: the recorded URLs
are pairwise distinct and all of them are in the visited set. -/
def RecInv (st : CrawlState) : Prop :=
  (recordedUrls st).Nodup ∧ ∀ u ∈ recordedUrls st, u ∈ st.visited

theorem recInv_record {st : CrawlState} {cu : List Char}
    (hinv : RecInv st) (hnv : cu ∉ st.visited) :
    ((st.successes.map PageRec.url ++ [cu]) ++ st.failures.map FailRec.url).Nodup ∧
    (st.successes.map PageRec.url ++ (st.failures.map FailRec.url ++ [cu])).Nodup := by
  obtain ⟨hnd, hsub⟩ := hinv
  have hnotin : cu ∉ recordedUrls st := fun hin => hnv (hsub cu hin)
  simp only [recordedUrls] at hnd hnotin
  constructor
  · rw [List.append_assoc, List.singleton_append, List.nodup_middle]
    exact List.nodup_cons.mpr ⟨hnotin, hnd⟩
  · rw [← List.append_assoc, List.nodup_append_comm, List.singleton_append,
      List.nodup_cons]
    exact ⟨hnotin, hnd⟩

theorem crawlLoop_recInv (cfg : CrawlConfig) (web : List Char → FetchResult)
    (bd : List Char) : ∀ (fuel : Nat) (st : CrawlState),
    RecInv st → RecInv (crawlLoop cfg web bd fuel st) := by
  intro fuel
  induction fuel with
  | zero => intro st h; simpa [crawlLoop] using h
  | succ n ih =>
    intro st hinv
    rw [crawlLoop]
    cases hq : st.queue with
    | nil => exact hinv
    | cons hd rest =>
      obtain ⟨cu, cd⟩ := hd
      dsimp only
      by_cases hp : st.pagesCrawled < cfg.maxPages
      · rw [if_pos hp]
        by_cases hv : cu ∈ st.visited ∨ cd > cfg.maxDepth
        · rw [if_pos hv]
          exact ih _ ⟨hinv.1, hinv.2⟩
        · rw [if_neg hv]
          push_neg at hv
          have hnv : cu ∉ st.visited := hv.1
          have hrec := recInv_record hinv hnv
          cases hw : web cu with
          | ok page =>
            apply ih
            constructor
            · simpa [recordedUrls] using hrec.1
            · intro u hu
              simp only [recordedUrls, List.map_append, List.mem_append,
                List.map_cons, List.map_nil, List.mem_singleton] at hu
              simp only [List.mem_append, List.mem_singleton]
              rcases hu with (hu | hu) | hu
              · exact Or.inl (hinv.2 u (by simp [recordedUrls, hu]))
              · exact Or.inr hu
              · exact Or.inl (hinv.2 u (by simp [recordedUrls, hu]))
          | failed msg =>
            apply ih
            constructor
            · simpa [recordedUrls] using hrec.2
            · intro u hu
              simp only [recordedUrls, List.map_append, List.mem_append,
                List.map_cons, List.map_nil, List.mem_singleton] at hu
              simp only [List.mem_append, List.mem_singleton]
              rcases hu with hu | (hu | hu)
              · exact Or.inl (hinv.2 u (by simp [recordedUrls, hu]))
              · exact Or.inl (hinv.2 u (by simp [recordedUrls, hu]))
              · exact Or.inr hu
          | raised msg =>
            apply ih
            constructor
            · simpa [recordedUrls] using hrec.2
            · intro u hu
              simp only [recordedUrls, List.map_append, List.mem_append,
                List.map_cons, List.map_nil, List.mem_singleton] at hu
              simp only [List.mem_append, List.mem_singleton]
              rcases hu with hu | (hu | hu)
              · exact Or.inl (hinv.2 u (by simp [recordedUrls, hu]))
              · exact Or.inl (hinv.2 u (by simp [recordedUrls, hu]))
              · exact Or.inr hu
      · rw [if_neg hp]
        exact hinv

theorem crawlLoop_visited_iff_recorded (cfg : CrawlConfig)
    (web : List Char → FetchResult) (bd : List Char) :
    ∀ (fuel : Nat) (st : CrawlState),
    (∀ u, u ∈ st.visited ↔ u ∈ recordedUrls st) →
    ∀ u, u ∈ (crawlLoop cfg web bd fuel st).visited ↔
      u ∈ recordedUrls (crawlLoop cfg web bd fuel st) := by
  intro fuel
  induction fuel with
  | zero => intro st h; simpa [crawlLoop] using h
  | succ n ih =>
    intro st hinv
    rw [crawlLoop]
    cases hq : st.queue with
    | nil => exact hinv
    | cons hd rest =>
      obtain ⟨cu, cd⟩ := hd
      dsimp only
      by_cases hp : st.pagesCrawled < cfg.maxPages
      · rw [if_pos hp]
        by_cases hv : cu ∈ st.visited ∨ cd > cfg.maxDepth
        · rw [if_pos hv]
          exact ih _ hinv
        · rw [if_neg hv]
          cases hw : web cu with
          | ok page =>
            apply ih
            intro u
            simp only [recordedUrls, List.map_append, List.mem_append, List.map_cons,
              List.map_nil, List.mem_singleton, List.mem_cons, List.not_mem_nil, or_false]
            have := hinv u
            simp only [recordedUrls, List.mem_append] at this
            tauto
          | failed msg =>
            apply ih
            intro u
            simp only [recordedUrls, List.map_append, List.mem_append, List.map_cons,
              List.map_nil, List.mem_singleton, List.mem_cons, List.not_mem_nil, or_false]
            have := hinv u
            simp only [recordedUrls, List.mem_append] at this
            tauto
          | raised msg =>
            apply ih
            intro u
            simp only [recordedUrls, List.map_append, List.mem_append, List.map_cons,
              List.map_nil, List.mem_singleton, List.mem_cons, List.not_mem_nil, or_false]
            have := hinv u
            simp only [recordedUrls, List.mem_append] at this
            tauto
      · rw [if_neg hp]
        exact hinv

/-- Depth invariant: every recorded page (success or failure) has depth at
most `max_depth`. -/
def DepthInv (cfg : CrawlConfig) (st : CrawlState) : Prop :=
  (∀ r ∈ st.successes, r.depth ≤ cfg.maxDepth) ∧
  (∀ f ∈ st.failures, f.depth ≤ cfg.maxDepth)

theorem crawlLoop_depthInv (cfg : CrawlConfig) (web : List Char → FetchResult)
    (bd : List Char) : ∀ (fuel : Nat) (st : CrawlState),
    DepthInv cfg st → DepthInv cfg (crawlLoop cfg web bd fuel st) := by
  intro fuel
  induction fuel with
  | zero => intro st h; simpa [crawlLoop] using h
  | succ n ih =>
    intro st hinv
    rw [crawlLoop]
    cases hq : st.queue with
    | nil => exact hinv
    | cons hd rest =>
      obtain ⟨cu, cd⟩ := hd
      dsimp only
      by_cases hp : st.pagesCrawled < cfg.maxPages
      · rw [if_pos hp]
        by_cases hv : cu ∈ st.visited ∨ cd > cfg.maxDepth
        · rw [if_pos hv]
          exact ih _ hinv
        · rw [if_neg hv]
          push_neg at hv
          have hd : cd ≤ cfg.maxDepth := hv.2
          cases hw : web cu with
          | ok page =>
            apply ih
            refine ⟨?_, hinv.2⟩
            intro r hr
            simp only [List.mem_append, List.mem_singleton] at hr
            rcases hr with hr | hr
            · exact hinv.1 r hr
            · rw [hr]; exact hd
          | failed msg =>
            apply ih
            refine ⟨hinv.1, ?_⟩
            intro f hf
            simp only [List.mem_append, List.mem_singleton] at hf
            rcases hf with hf | hf
            · exact hinv.2 f hf
            · rw [hf]; exact hd
          | raised msg =>
            apply ih
            refine ⟨hinv.1, ?_⟩
            intro f hf
            simp only [List.mem_append, List.mem_singleton] at hf
            rcases hf with hf | hf
            · exact hinv.2 f hf
            · rw [hf]; exact hd
      · rw [if_neg hp]
        exact hinv

/-- Budget invariant: `pages_crawled` counts exactly the recorded
successes (it is incremented only in the success branch, line 218) and
never exceeds `max_pages`. -/
def CountInv (cfg : CrawlConfig) (st : CrawlState) : Prop :=
  st.successes.length = st.pagesCrawled ∧ st.pagesCrawled ≤ cfg.maxPages

theorem crawlLoop_countInv (cfg : CrawlConfig) (web : List Char → FetchResult)
    (bd : List Char) : ∀ (fuel : Nat) (st : CrawlState),
    CountInv cfg st → CountInv cfg (crawlLoop cfg web bd fuel st) := by
  intro fuel
  induction fuel with
  | zero => intro st h; simpa [crawlLoop] using h
  | succ n ih =>
    intro st hinv
    rw [crawlLoop]
    cases hq : st.queue with
    | nil => exact hinv
    | cons hd rest =>
      obtain ⟨cu, cd⟩ := hd
      dsimp only
      by_cases hp : st.pagesCrawled < cfg.maxPages
      · rw [if_pos hp]
        by_cases hv : cu ∈ st.visited ∨ cd > cfg.maxDepth
        · rw [if_pos hv]
          exact ih _ hinv
        · rw [if_neg hv]
          cases hw : web cu with
          | ok page =>
            apply ih
            obtain ⟨h1, h2⟩ := hinv
            constructor
            · dsimp only
              simp only [List.length_append, List.length_singleton]
              omega
            · dsimp only
              omega
          | failed msg => exact ih _ hinv
          | raised msg => exact ih _ hinv
      · rw [if_neg hp]
        exact hinv

theorem foldl_enqueueLink_mem (cfg : CrawlConfig) (bd cu : List Char) (cd : Nat)
    (vis : List (List Char)) :
    ∀ (links : List LinkData) (q : List (List Char × Nat)) (t : List Char × Nat),
    t ∈ links.foldl (enqueueLink cfg bd cu cd vis) q →
    t ∈ q ∨ cfg.patterns = [] ∨ cfg.patterns.any (fun p => reMatch p t.1) = true := by
  intro links
  induction links with
  | nil => intro q t ht; exact Or.inl ht
  | cons l ls ih =>
    intro q t ht
    rw [List.foldl_cons] at ht
    rcases ih _ t ht with h | h
    · -- t came through one enqueueLink step
      unfold enqueueLink at h
      by_cases h1 : l.href = []
      · rw [if_pos h1] at h; exact Or.inl h
      · rw [if_neg h1] at h
        by_cases h2 : urljoin cu l.href ∈ vis
        · rw [if_pos h2] at h; exact Or.inl h
        · rw [if_neg h2] at h
          by_cases h3 : cfg.domainRestrict ∧ bd ≠ [] ∧
              (urlparse [] (urljoin cu l.href)).netloc ≠ bd
          · rw [if_pos h3] at h; exact Or.inl h
          · rw [if_neg h3] at h
            by_cases h4 : cfg.patterns ≠ [] ∧
                ¬ cfg.patterns.any (fun p => reMatch p (urljoin cu l.href))
            · rw [if_pos h4] at h; exact Or.inl h
            · rw [if_neg h4] at h
              push_neg at h4
              have hpat : cfg.patterns = [] ∨
                  cfg.patterns.any (fun p => reMatch p (urljoin cu l.href)) = true := by
                by_cases he : cfg.patterns = []
                · exact Or.inl he
                · exact Or.inr (by simpa using h4 he)
              cases hst : cfg.strategy with
              | bfs =>
                rw [hst] at h
                simp only [List.mem_append, List.mem_singleton] at h
                rcases h with h | h
                · exact Or.inl h
                · right
                  rcases hpat with hp | hp
                  · exact Or.inl hp
                  · exact Or.inr (by rw [h]; exact hp)
              | dfs =>
                rw [hst] at h
                simp only [List.mem_cons] at h
                rcases h with h | h
                · right
                  rcases hpat with hp | hp
                  · exact Or.inl hp
                  · exact Or.inr (by rw [h]; exact hp)
                · exact Or.inl h
              | bestFirst =>
                rw [hst] at h
                by_cases h5 : cfg.keywords ≠ []
                · rw [if_pos h5] at h
                  by_cases h6 : 0 < (cfg.keywords.filter
                      (fun k => containsSub (k.map Char.toLower)
                        (l.text.map Char.toLower))).length
                  · rw [if_pos h6] at h
                    simp only [List.mem_cons] at h
                    rcases h with h | h
                    · right
                      rcases hpat with hp | hp
                      · exact Or.inl hp
                      · exact Or.inr (by rw [h]; exact hp)
                    · exact Or.inl h
                  · rw [if_neg h6] at h
                    simp only [List.mem_append, List.mem_singleton] at h
                    rcases h with h | h
                    · exact Or.inl h
                    · right
                      rcases hpat with hp | hp
                      · exact Or.inl hp
                      · exact Or.inr (by rw [h]; exact hp)
                · rw [if_neg h5] at h
                  exact Or.inl h
    · exact Or.inr h

/-- Pattern-filter invariant: every queued task and every recorded URL is
either the seed or (when patterns are configured) matches at least one
pattern. -/
def PatInv (cfg : CrawlConfig) (seed : List Char) (st : CrawlState) : Prop :=
  (∀ t ∈ st.queue, t.1 = seed ∨ cfg.patterns = [] ∨
    cfg.patterns.any (fun p => reMatch p t.1) = true) ∧
  (∀ u ∈ recordedUrls st, u = seed ∨ cfg.patterns = [] ∨
    cfg.patterns.any (fun p => reMatch p u) = true)

theorem crawlLoop_patInv (cfg : CrawlConfig) (web : List Char → FetchResult)
    (bd seed : List Char) : ∀ (fuel : Nat) (st : CrawlState),
    PatInv cfg seed st → PatInv cfg seed (crawlLoop cfg web bd fuel st) := by
  intro fuel
  induction fuel with
  | zero => intro st h; simpa [crawlLoop] using h
  | succ n ih =>
    intro st hinv
    rw [crawlLoop]
    cases hq : st.queue with
    | nil => exact hinv
    | cons hd rest =>
      obtain ⟨cu, cd⟩ := hd
      dsimp only
      have hcu : cu = seed ∨ cfg.patterns = [] ∨
          cfg.patterns.any (fun p => reMatch p cu) = true :=
        hinv.1 (cu, cd) (by rw [hq]; simp)
      have hrest : ∀ t ∈ rest, t.1 = seed ∨ cfg.patterns = [] ∨
          cfg.patterns.any (fun p => reMatch p t.1) = true :=
        fun t ht => hinv.1 t (by rw [hq]; simp [ht])
      by_cases hp : st.pagesCrawled < cfg.maxPages
      · rw [if_pos hp]
        by_cases hv : cu ∈ st.visited ∨ cd > cfg.maxDepth
        · rw [if_pos hv]
          exact ih _ ⟨hrest, hinv.2⟩
        · rw [if_neg hv]
          have hrec2 : ∀ u ∈ recordedUrls st ++ [cu], u = seed ∨ cfg.patterns = [] ∨
              cfg.patterns.any (fun p => reMatch p u) = true := by
            intro u hu
            rcases List.mem_append.mp hu with hu | hu
            · exact hinv.2 u hu
            · rw [List.mem_singleton.mp hu]; exact hcu
          cases hw : web cu with
          | ok page =>
            apply ih
            constructor
            · intro t ht
              dsimp only at ht
              by_cases hdep : cd < cfg.maxDepth
              · rw [if_pos hdep] at ht
                rcases foldl_enqueueLink_mem cfg bd cu cd _ _ _ t ht with h | h
                · exact hrest t h
                · exact Or.inr h
              · rw [if_neg hdep] at ht
                exact hrest t ht
            · intro u hu
              apply hrec2
              simp only [recordedUrls, List.map_append, List.mem_append, List.map_cons,
                List.map_nil, List.mem_singleton, List.mem_cons, List.not_mem_nil,
                or_false] at hu
              simp only [recordedUrls, List.mem_append, List.mem_singleton]
              tauto
          | failed msg =>
            apply ih
            refine ⟨hrest, ?_⟩
            intro u hu
            apply hrec2
            simp only [recordedUrls, List.map_append, List.mem_append, List.map_cons,
              List.map_nil, List.mem_singleton, List.mem_cons, List.not_mem_nil,
              or_false] at hu
            simp only [recordedUrls, List.mem_append, List.mem_singleton]
            tauto
          | raised msg =>
            apply ih
            refine ⟨hrest, ?_⟩
            intro u hu
            apply hrec2
            simp only [recordedUrls, List.map_append, List.mem_append, List.map_cons,
              List.map_nil, List.mem_singleton, List.mem_cons, List.not_mem_nil,
              or_false] at hu
            simp only [recordedUrls, List.mem_append, List.mem_singleton]
            tauto
      · rw [if_neg hp]
        exact hinv

theorem crawlLoop_queue_nil (cfg : CrawlConfig) (web : List Char → FetchResult)
    (bd : List Char) (fuel : Nat) (st : CrawlState) (h : st.queue = []) :
    crawlLoop cfg web bd fuel st = st := by
  cases fuel with
  | zero => rw [crawlLoop]
  | succ n => rw [crawlLoop, h]

theorem enqueueLink_bestFirst_no_keywords (cfg : CrawlConfig)
    (hs : cfg.strategy = Strategy.bestFirst) (hk : cfg.keywords = [])
    (bd cu : List Char) (cd : Nat) (vis : List (List Char))
    (q : List (List Char × Nat)) (l : LinkData) :
    enqueueLink cfg bd cu cd vis q l = q := by
  unfold enqueueLink
  by_cases h1 : l.href = []
  · rw [if_pos h1]
  · rw [if_neg h1]
    dsimp only
    by_cases h2 : urljoin cu l.href ∈ vis
    · rw [if_pos h2]
    · rw [if_neg h2]
      by_cases h3 : cfg.domainRestrict ∧ bd ≠ [] ∧
          (urlparse [] (urljoin cu l.href)).netloc ≠ bd
      · rw [if_pos h3]
      · rw [if_neg h3]
        by_cases h4 : cfg.patterns ≠ [] ∧
            ¬ cfg.patterns.any (fun p => reMatch p (urljoin cu l.href))
        · rw [if_pos h4]
        · rw [if_neg h4]
          rw [hs]
          dsimp only
          rw [if_neg (by simp [hk])]

theorem foldl_enqueueLink_bestFirst_no_keywords (cfg : CrawlConfig)
    (hs : cfg.strategy = Strategy.bestFirst) (hk : cfg.keywords = [])
    (bd cu : List Char) (cd : Nat) (vis : List (List Char))
    (links : List LinkData) (q : List (List Char × Nat)) :
    links.foldl (enqueueLink cfg bd cu cd vis) q = q := by
  induction links generalizing q with
  | nil => rfl
  | cons l ls ih =>
    rw [List.foldl_cons, enqueueLink_bestFirst_no_keywords cfg hs hk, ih]

/-! ### Invariants of the minimal crawl loop -/

/-- De-duplication invariant of `minimal_crawler.deep_crawl`: the saved
page URLs are pairwise distinct and all visited. -/
def MinRecInv (st : MinState) : Prop :=
  (st.savedPages.map Prod.fst).Nodup ∧
  ∀ u ∈ st.savedPages.map Prod.fst, u ∈ st.visited

theorem minLoop_recInv (maxDepth maxPages : Nat) (web : List Char → MinFetchResult)
    (bd : List Char) : ∀ (fuel : Nat) (st : MinState),
    MinRecInv st → MinRecInv (minLoop maxDepth maxPages web bd fuel st) := by
  intro fuel
  induction fuel with
  | zero => intro st h; simpa [minLoop] using h
  | succ n ih =>
    intro st hinv
    rw [minLoop]
    cases hq : st.queue with
    | nil => exact hinv
    | cons hd rest =>
      obtain ⟨cu, cd⟩ := hd
      dsimp only
      by_cases hp : st.pagesCrawled < maxPages
      · rw [if_pos hp]
        by_cases hv : cu ∈ st.visited ∨ cd > maxDepth
        · rw [if_pos hv]
          exact ih _ hinv
        · rw [if_neg hv]
          push_neg at hv
          have hnv : cu ∉ st.visited := hv.1
          have hnotin : cu ∉ st.savedPages.map Prod.fst :=
            fun hin => hnv (hinv.2 cu hin)
          cases hw : web cu with
          | ok page =>
            apply ih
            constructor
            · dsimp only
              rw [List.map_append]
              simp only [List.map_cons, List.map_nil]
              rw [List.nodup_append_comm, List.singleton_append, List.nodup_cons]
              exact ⟨hnotin, hinv.1⟩
            · intro u hu
              dsimp only at hu ⊢
              rw [List.map_append] at hu
              simp only [List.mem_append, List.map_cons, List.map_nil,
                List.mem_singleton, List.mem_cons, List.not_mem_nil, or_false] at hu ⊢
              rcases hu with hu | hu
              · exact Or.inl (hinv.2 u hu)
              · exact Or.inr hu
          | failed msg =>
            apply ih
            refine ⟨hinv.1, ?_⟩
            intro u hu
            dsimp only at hu ⊢
            simp only [List.mem_append, List.mem_singleton]
            exact Or.inl (hinv.2 u hu)
          | raised msg =>
            apply ih
            refine ⟨hinv.1, ?_⟩
            intro u hu
            dsimp only at hu ⊢
            simp only [List.mem_append, List.mem_singleton]
            exact Or.inl (hinv.2 u hu)
      · rw [if_neg hp]
        exact hinv

/-- Budget invariant of `minimal_crawler.deep_crawl`: `pages_crawled`
counts every attempt (it is incremented before the fetch, line 109), the
saved pages are a subset of the attempts, and the count never exceeds
`max_pages`. -/
def MinCountInv (maxPages : Nat) (st : MinState) : Prop :=
  st.savedPages.length ≤ st.pagesCrawled ∧ st.pagesCrawled ≤ maxPages

theorem minLoop_countInv (maxDepth maxPages : Nat) (web : List Char → MinFetchResult)
    (bd : List Char) : ∀ (fuel : Nat) (st : MinState),
    MinCountInv maxPages st → MinCountInv maxPages (minLoop maxDepth maxPages web bd fuel st) := by
  intro fuel
  induction fuel with
  | zero => intro st h; simpa [minLoop] using h
  | succ n ih =>
    intro st hinv
    rw [minLoop]
    cases hq : st.queue with
    | nil => exact hinv
    | cons hd rest =>
      obtain ⟨cu, cd⟩ := hd
      dsimp only
      by_cases hp : st.pagesCrawled < maxPages
      · rw [if_pos hp]
        by_cases hv : cu ∈ st.visited ∨ cd > maxDepth
        · rw [if_pos hv]
          exact ih _ hinv
        · rw [if_neg hv]
          obtain ⟨h1, h2⟩ := hinv
          cases hw : web cu with
          | ok page =>
            apply ih
            constructor
            · dsimp only
              simp only [List.length_append, List.length_singleton]
              omega
            · dsimp only
              omega
          | failed msg =>
            apply ih
            exact ⟨by dsimp only; omega, by dsimp only; omega⟩
          | raised msg =>
            apply ih
            exact ⟨by dsimp only; omega, by dsimp only; omega⟩
      · rw [if_neg hp]
        exact hinv

/-! ### Idempotence machinery for the URL normalizer -/

/-- A scheme as produced by a successful scheme split: non-empty in
spirit (the head exists and is a letter), all scheme chars, and already
lower-cased. -/
def ValidLowerScheme (s : List Char) : Prop :=
  s.all isSchemeChar = true ∧
  (∃ c t, s = c :: t ∧ c.isAlpha = true) ∧
  s.map Char.toLower = s

theorem validLowerScheme_not_colon {s : List Char} (h : ValidLowerScheme s) : ':' ∉ s := by
  intro hc
  have := List.all_eq_true.mp h.1 ':' hc
  simp [isSchemeChar] at this

theorem splitScheme_fst_valid (url : List Char) :
    (splitScheme [] url).1 = [] ∨ ValidLowerScheme (splitScheme [] url).1 := by
  unfold splitScheme
  cases hs : splitAtFirst ':' url with
  | none => left; rfl
  | some p =>
    obtain ⟨pre, post⟩ := p
    dsimp only
    by_cases hv : validScheme pre
    · rw [if_pos hv]
      right
      unfold validScheme at hv
      cases pre with
      | nil => simp at hv
      | cons c t =>
        simp only [Bool.and_eq_true] at hv
        refine ⟨?_, ⟨Char.toLower c, t.map Char.toLower, by simp, isAlpha_toLower c hv.1⟩, ?_⟩
        · rw [List.all_map]
          apply List.all_eq_true.mpr
          intro x hx
          exact isSchemeChar_toLower x (List.all_eq_true.mp hv.2 x hx)
        · rw [List.map_map]
          apply List.map_congr_left
          intro x _
          exact toLower_toLower x
    · rw [if_neg hv]; left; rfl
  
theorem splitScheme_assembled (ds s rest : List Char) (h : ValidLowerScheme s) :
    splitScheme ds (s ++ ':' :: rest) = (s, rest) := by
  unfold splitScheme
  rw [splitAtFirst_append (validLowerScheme_not_colon h)]
  dsimp only
  obtain ⟨c, t, rfl, hca⟩ := h.2.1
  rw [if_pos ?_]
  · rw [h.2.2]
  · unfold validScheme
    simp only [Bool.and_eq_true]
    exact ⟨hca, h.1⟩

theorem splitFragment_fst_pref (l : List Char) : (splitFragment l).1 <+: l := by
  unfold splitFragment
  cases hs : splitAtFirst '#' l with
  | none => exact listPrefRfl l
  | some p =>
    obtain ⟨a, b⟩ := p
    dsimp only
    obtain ⟨he, _⟩ := splitAtFirst_eq_some hs
    exact ⟨'#' :: b, he.symm⟩

theorem splitFragment_fst_no_hash (l : List Char) : '#' ∉ (splitFragment l).1 := by
  unfold splitFragment
  cases hs : splitAtFirst '#' l with
  | none => exact splitAtFirst_eq_none.mp hs
  | some p =>
    obtain ⟨a, b⟩ := p
    exact (splitAtFirst_eq_some hs).2

theorem splitQuery_fst_pref (l : List Char) : (splitQuery l).1 <+: l := by
  unfold splitQuery
  cases hs : splitAtFirst '?' l with
  | none => exact listPrefRfl l
  | some p =>
    obtain ⟨a, b⟩ := p
    dsimp only
    obtain ⟨he, _⟩ := splitAtFirst_eq_some hs
    exact ⟨'?' :: b, he.symm⟩

theorem splitQuery_fst_no_qmark (l : List Char) : '?' ∉ (splitQuery l).1 := by
  unfold splitQuery
  cases hs : splitAtFirst '?' l with
  | none => exact splitAtFirst_eq_none.mp hs
  | some p =>
    obtain ⟨a, b⟩ := p
    exact (splitAtFirst_eq_some hs).2

theorem splitQuery_snd_subset (l : List Char) : ∀ c ∈ (splitQuery l).2, c ∈ l := by
  unfold splitQuery
  cases hs : splitAtFirst '?' l with
  | none => simp
  | some p =>
    obtain ⟨a, b⟩ := p
    dsimp only
    obtain ⟨he, _⟩ := splitAtFirst_eq_some hs
    intro c hc
    rw [he]
    simp [hc]

theorem splitFragment_assembled (l : List Char) (h : '#' ∉ l) :
    splitFragment l = (l, []) := by
  unfold splitFragment
  rw [splitAtFirst_eq_none.mpr h]

theorem splitQuery_assembled_none (l : List Char) (h : '?' ∉ l) :
    splitQuery l = (l, []) := by
  unfold splitQuery
  rw [splitAtFirst_eq_none.mpr h]

theorem splitQuery_assembled_some (p q : List Char) (h : '?' ∉ p) :
    splitQuery (p ++ '?' :: q) = (p, q) := by
  unfold splitQuery
  rw [splitAtFirst_append h]

/-- Last-segment condition making `_splitparams` a no-op: no `';'` in the
last `'/'`-separated segment (or anywhere when there is no `'/'`). -/
def NoSemiLastSeg (p : List Char) : Prop :=
  match splitAtLast '/' p with
  | some pr => ';' ∉ pr.2
  | none => ';' ∉ p

theorem noSemiLastSeg_of_not_mem {p : List Char} (h : ';' ∉ p) : NoSemiLastSeg p := by
  unfold NoSemiLastSeg
  cases hs : splitAtLast '/' p with
  | none => exact h
  | some pr =>
    obtain ⟨a, b⟩ := pr
    dsimp only
    obtain ⟨he, _⟩ := splitAtLast_eq_some hs
    intro hb
    exact h (by rw [he]; simp [hb])

theorem splitParams_fst_pref (p : List Char) : (splitParams p).1 <+: p := by
  unfold splitParams
  cases hl : splitAtLast '/' p with
  | none =>
    cases hf : splitAtFirst ';' p with
    | none => exact listPrefRfl p
    | some pr =>
      obtain ⟨a, b⟩ := pr
      dsimp only
      obtain ⟨he, _⟩ := splitAtFirst_eq_some hf
      exact ⟨';' :: b, he.symm⟩
  | some pr =>
    obtain ⟨pre, seg⟩ := pr
    dsimp only
    cases hf : splitAtFirst ';' seg with
    | none => exact listPrefRfl p
    | some ab =>
      obtain ⟨a, b⟩ := ab
      dsimp only
      obtain ⟨hel, _⟩ := splitAtLast_eq_some hl
      obtain ⟨hef, _⟩ := splitAtFirst_eq_some hf
      refine ⟨';' :: b, ?_⟩
      rw [hel, hef]
      simp

theorem splitParams_fst_noSemi (p : List Char) : NoSemiLastSeg (splitParams p).1 := by
  unfold splitParams
  cases hl : splitAtLast '/' p with
  | none =>
    have hnp : '/' ∉ p := splitAtLast_eq_none.mp hl
    cases hf : splitAtFirst ';' p with
    | none =>
      dsimp only
      exact noSemiLastSeg_of_not_mem (splitAtFirst_eq_none.mp hf)
    | some pr =>
      obtain ⟨a, b⟩ := pr
      dsimp only
      obtain ⟨he, hna⟩ := splitAtFirst_eq_some hf
      exact noSemiLastSeg_of_not_mem hna
  | some pr =>
    obtain ⟨pre, seg⟩ := pr
    dsimp only
    obtain ⟨hel, hns⟩ := splitAtLast_eq_some hl
    cases hf : splitAtFirst ';' seg with
    | none =>
      dsimp only
      unfold NoSemiLastSeg
      rw [hel, splitAtLast_append hns]
      exact splitAtFirst_eq_none.mp hf
    | some ab =>
      obtain ⟨a, b⟩ := ab
      dsimp only
      obtain ⟨hef, hna⟩ := splitAtFirst_eq_some hf
      unfold NoSemiLastSeg
      have hnsa : '/' ∉ a := fun ha => hns (by rw [hef]; simp [ha])
      rw [splitAtLast_append hnsa]
      exact hna

theorem splitParams_of_noSemi (p : List Char) (h : NoSemiLastSeg p) :
    splitParams p = (p, []) := by
  unfold splitParams
  unfold NoSemiLastSeg at h
  cases hl : splitAtLast '/' p with
  | none =>
    rw [hl] at h
    rw [splitAtFirst_eq_none.mpr h]
  | some pr =>
    obtain ⟨pre, seg⟩ := pr
    rw [hl] at h
    dsimp only at h ⊢
    rw [splitAtFirst_eq_none.mpr h]

theorem splitNetloc_assembled (n rest : List Char)
    (hn : ∀ c ∈ n, isNetlocDelim c = false)
    (hrest : rest = [] ∨ ∃ c t, rest = c :: t ∧ isNetlocDelim c = true) :
    splitNetloc ('/' :: '/' :: (n ++ rest)) = (n, rest) := by
  unfold splitNetloc
  rw [if_pos (by simp)]
  simpa using splitHostDelim_append hn hrest

theorem splitNetloc_fst_no_delim (url : List Char) :
    ∀ c ∈ (splitNetloc url).1, isNetlocDelim c = false := by
  unfold splitNetloc
  by_cases h : url.take 2 = ['/', '/']
  · rw [if_pos h]; exact splitHostDelim_fst_no_delim
  · rw [if_neg h]; simp

theorem splitNetloc_snd_of_fst_ne (url : List Char)
    (h : (splitNetloc url).1 ≠ []) :
    (splitNetloc url).2 = [] ∨
      ∃ c t, (splitNetloc url).2 = c :: t ∧ isNetlocDelim c = true := by
  unfold splitNetloc at h ⊢
  by_cases ht : url.take 2 = ['/', '/']
  · rw [if_pos ht] at h ⊢
    exact splitHostDelim_snd _
  · rw [if_neg ht] at h
    simp at h

/-- Parsing the string `normalize_url` assembles, for valid components,
recovers exactly those components. -/
theorem urlparse_assembled (ds s n p q : List Char)
    (hs : ValidLowerScheme s)
    (hnd : ∀ c ∈ n, isNetlocDelim c = false)
    (hp1 : '#' ∉ p) (hp2 : '?' ∉ p) (hp3 : p = [] ∨ ∃ t, p = '/' :: t)
    (hp4 : NoSemiLastSeg p)
    (hq : '#' ∉ q) :
    urlparse ds (s ++ ':' :: '/' :: '/' ::
        (n ++ p ++ (if q = [] then [] else '?' :: q))) =
      ⟨s, n, p, [], q, []⟩ := by
  have hqp_delim : (p ++ (if q = [] then [] else '?' :: q)) = [] ∨
      ∃ c t, (p ++ (if q = [] then [] else '?' :: q)) = c :: t ∧
        isNetlocDelim c = true := by
    rcases hp3 with rfl | ⟨t, rfl⟩
    · by_cases hq0 : q = []
      · rw [if_pos hq0]; left; rfl
      · rw [if_neg hq0]; right; exact ⟨'?', q, rfl, by decide⟩
    · right; exact ⟨'/', t ++ _, rfl, by decide⟩
  have hsplit : urlsplit ds (s ++ ':' :: '/' :: '/' ::
      (n ++ p ++ (if q = [] then [] else '?' :: q))) = ⟨s, n, p, [], q, []⟩ := by
    unfold urlsplit
    rw [splitScheme_assembled ds s _ hs]
    dsimp only
    rw [List.append_assoc n p _]
    rw [splitNetloc_assembled n _ hnd hqp_delim]
    dsimp only
    have hqnohash : '#' ∉ (if q = [] then [] else '?' :: q) := by
      by_cases hq0 : q = []
      · rw [if_pos hq0]; simp
      · rw [if_neg hq0]
        simp only [List.mem_cons, not_or]
        exact ⟨by decide, hq⟩
    rw [splitFragment_assembled _ (by
      simp only [List.mem_append, not_or]
      exact ⟨hp1, hqnohash⟩)]
    dsimp only
    by_cases hq0 : q = []
    · rw [if_pos hq0]
      rw [List.append_nil]
      rw [splitQuery_assembled_none p hp2]
      rw [hq0]
    · rw [if_neg hq0]
      rw [splitQuery_assembled_some p q hp2]
  unfold urlparse
  rw [hsplit]
  dsimp only
  by_cases hsemi : ';' ∈ p
  · rw [if_pos hsemi]
    rw [splitParams_of_noSemi p hp4]
  · rw [if_neg hsemi]

/-- Unfolded form of `urlparse` as a pipeline of the four splits. -/
theorem urlparse_eq (ds u : List Char) :
    urlparse ds u =
      ⟨(splitScheme ds u).1,
       (splitNetloc (splitScheme ds u).2).1,
       (if ';' ∈ (splitQuery (splitFragment (splitNetloc (splitScheme ds u).2).2).1).1 then
          splitParams (splitQuery (splitFragment (splitNetloc (splitScheme ds u).2).2).1).1
        else ((splitQuery (splitFragment (splitNetloc (splitScheme ds u).2).2).1).1, [])).1,
       (if ';' ∈ (splitQuery (splitFragment (splitNetloc (splitScheme ds u).2).2).1).1 then
          splitParams (splitQuery (splitFragment (splitNetloc (splitScheme ds u).2).2).1).1
        else ((splitQuery (splitFragment (splitNetloc (splitScheme ds u).2).2).1).1, [])).2,
       (splitQuery (splitFragment (splitNetloc (splitScheme ds u).2).2).1).2,
       (splitFragment (splitNetloc (splitScheme ds u).2).2).2⟩ := by
  unfold urlparse urlsplit
  dsimp only
  by_cases h : ';' ∈ (splitQuery (splitFragment (splitNetloc (splitScheme ds u).2).2).1).1
  · rw [if_pos h, if_pos h]
  · rw [if_neg h, if_neg h]

theorem isNetlocDelim_cases {c : Char} (h : isNetlocDelim c = true) :
    c = '/' ∨ c = '?' ∨ c = '#' := by
  have h2 := h
  simp only [isNetlocDelim, Bool.or_eq_true, beq_iff_eq] at h2
  tauto

/-- The path component of a parse whose net-location is non-empty is valid
for reassembly: no `'#'`, no `'?'`, empty or starting with `'/'`, and no
`';'` in its last segment. -/
theorem urlparse_path_valid (u : List Char) (hn : (urlparse [] u).netloc ≠ []) :
    '#' ∉ (urlparse [] u).path ∧ '?' ∉ (urlparse [] u).path ∧
    ((urlparse [] u).path = [] ∨ ∃ t, (urlparse [] u).path = '/' :: t) ∧
    NoSemiLastSeg (urlparse [] u).path := by
  rw [urlparse_eq] at hn ⊢
  dsimp only at hn ⊢
  set sp := splitScheme [] u with hsp
  set np := splitNetloc sp.2 with hnp
  set fp := splitFragment np.2 with hfp
  set qp := splitQuery fp.1 with hqp
  have hpath_pre : (if ';' ∈ qp.1 then splitParams qp.1 else (qp.1, [])).1 <+: qp.1 := by
    by_cases h : ';' ∈ qp.1
    · simpa only [if_pos h] using splitParams_fst_pref qp.1
    · simpa only [if_neg h] using listPrefRfl qp.1
  set path := (if ';' ∈ qp.1 then splitParams qp.1 else (qp.1, [])).1 with hpa
  have hsub_qp : path ⊆ qp.1 := hpath_pre.subset
  have hsub_fp : path ⊆ fp.1 := fun c hc =>
    (splitQuery_fst_pref fp.1).subset (hsub_qp hc)
  have h1 : '#' ∉ path := fun hc => splitFragment_fst_no_hash np.2 (hsub_fp hc)
  have h2 : '?' ∉ path := fun hc => splitQuery_fst_no_qmark fp.1 (hsub_qp hc)
  refine ⟨h1, h2, ?_, ?_⟩
  · cases hpc : path with
    | nil => exact Or.inl rfl
    | cons c t =>
      right
      have hpref : path <+: np.2 :=
        (hpath_pre.trans (splitQuery_fst_pref fp.1)).trans (splitFragment_fst_pref np.2)
      rw [hpc] at hpref
      obtain ⟨r, hr⟩ := hpref
      have hnp2 := splitNetloc_snd_of_fst_ne sp.2 hn
      rcases hnp2 with hnil | ⟨c', t', he, hdel⟩
      · rw [hnil] at hr; simp at hr
      · rw [he] at hr
        have hcc : c = c' := by
          have h0 := congrArg List.head? hr
          simpa using h0
        subst hcc
        rcases isNetlocDelim_cases hdel with h | h | h
        · exact ⟨t, by rw [h]⟩
        · exact absurd (h ▸ (by rw [hpc]; simp : c ∈ path)) h2
        · exact absurd (h ▸ (by rw [hpc]; simp : c ∈ path)) h1
  · rw [hpa]
    by_cases h : ';' ∈ qp.1
    · rw [if_pos h]; exact splitParams_fst_noSemi qp.1
    · rw [if_neg h]; exact noSemiLastSeg_of_not_mem h

theorem urlparse_query_no_hash (u : List Char) : '#' ∉ (urlparse [] u).query := by
  rw [urlparse_eq]
  dsimp only
  intro hc
  exact splitFragment_fst_no_hash _
    (splitQuery_snd_subset _ '#' hc)

theorem urlparse_netloc_no_delim (u : List Char) :
    ∀ c ∈ (urlparse [] u).netloc, isNetlocDelim c = false := by
  rw [urlparse_eq]
  dsimp only
  exact splitNetloc_fst_no_delim _

theorem urlparse_scheme_valid (u : List Char) (h : (urlparse [] u).scheme ≠ []) :
    ValidLowerScheme (urlparse [] u).scheme := by
  rw [urlparse_eq] at h ⊢
  dsimp only at h ⊢
  rcases splitScheme_fst_valid u with h0 | h0
  · exact absurd h0 h
  · exact h0

theorem urlparse_normalize (u : List Char)
    (hs : (urlparse [] u).scheme ≠ []) (hn : (urlparse [] u).netloc ≠ []) :
    urlparse [] (normalize_url u) =
      ⟨(urlparse [] u).scheme, (urlparse [] u).netloc, (urlparse [] u).path, [],
       (urlparse [] u).query, []⟩ := by
  have hb : normalize_url u = (urlparse [] u).scheme ++ ':' :: '/' :: '/' ::
      ((urlparse [] u).netloc ++ (urlparse [] u).path ++
        (if (urlparse [] u).query = [] then [] else '?' :: (urlparse [] u).query)) := rfl
  rw [hb]
  obtain ⟨hp1, hp2, hp3, hp4⟩ := urlparse_path_valid u hn
  exact urlparse_assembled [] _ _ _ _ (urlparse_scheme_valid u hs)
    (urlparse_netloc_no_delim u) hp1 hp2 hp3 hp4 (urlparse_query_no_hash u)

theorem normalize_url_idem (u : List Char)
    (hs : (urlparse [] u).scheme ≠ []) (hn : (urlparse [] u).netloc ≠ []) :
    normalize_url (normalize_url u) = normalize_url u := by
  show (urlparse [] (normalize_url u)).scheme ++ ':' :: '/' :: '/' ::
      ((urlparse [] (normalize_url u)).netloc ++ (urlparse [] (normalize_url u)).path ++
        (if (urlparse [] (normalize_url u)).query = [] then []
         else '?' :: (urlparse [] (normalize_url u)).query)) = normalize_url u
  rw [urlparse_normalize u hs hn]
  rfl

/-! ### Concrete scenarios

Small fake webs (fetch collaborators driven by a fixed link graph) used to
evaluate the crawl loops on concrete inputs. -/

/-- Seed `http://h/`. -/
def seedH : List Char := "http://h/".toList

/-- Budget scenario: the seed succeeds with two links, `/a` fails,
`/b` succeeds. -/
def webBudget : List Char → FetchResult := fun u =>
  if u = "http://h/".toList then
    .ok ⟨[], [⟨"/a".toList, []⟩, ⟨"/b".toList, []⟩], []⟩
  else if u = "http://h/a".toList then .failed "boom".toList
  else if u = "http://h/b".toList then .ok ⟨[], [], []⟩
  else .failed []

/-- `bfs`, `max_depth=1`, `max_pages=2`, no keywords, no patterns, domain
restriction on. -/
def cfgBudget : CrawlConfig := ⟨.bfs, 1, 2, [], [], true⟩

/-- Duplicate-frontier scenario: `/a` and `/b` both link to `/l`. -/
def webDup : List Char → FetchResult := fun u =>
  if u = "http://h/".toList then
    .ok ⟨[], [⟨"/a".toList, []⟩, ⟨"/b".toList, []⟩], []⟩
  else if u = "http://h/a".toList then .ok ⟨[], [⟨"/l".toList, []⟩], []⟩
  else if u = "http://h/b".toList then .ok ⟨[], [⟨"/l".toList, []⟩], []⟩
  else .ok ⟨[], [], []⟩

/-- `bfs`, `max_depth=2`, `max_pages=10`. -/
def cfgDup : CrawlConfig := ⟨.bfs, 2, 10, [], [], true⟩

/-- Seed `http://example.com/`. -/
def seedEx : List Char := "http://example.com/".toList

/-- The spec's filter scenario: the seed page returns the five links
`["/a", "/b", "http://other.com/x", "#frag", "javascript:void(0)"]`. -/
def web5 : List Char → FetchResult := fun u =>
  if u = "http://example.com/".toList then
    .ok ⟨[], [⟨"/a".toList, []⟩, ⟨"/b".toList, []⟩,
              ⟨"http://other.com/x".toList, []⟩, ⟨"#frag".toList, []⟩,
              ⟨"javascript:void(0)".toList, []⟩], []⟩
  else .ok ⟨[], [], []⟩

/-- The same scenario for `minimal_crawler.deep_crawl` (anchor hrefs). -/
def minWeb5 : List Char → MinFetchResult := fun u =>
  if u = "http://example.com/".toList then
    .ok ⟨"x".toList,
         ["/a".toList, "/b".toList, "http://other.com/x".toList,
          "#frag".toList, "javascript:void(0)".toList], []⟩
  else .ok ⟨"x".toList, [], []⟩

/-- `bfs`, `max_depth=1`, `max_pages=5`, domain restriction on. -/
def cfg5 : CrawlConfig := ⟨.bfs, 1, 5, [], [], true⟩

/-- One-link web for the best-first comparison: the seed links to `/a`. -/
def web6 : List Char → FetchResult := fun u =>
  if u = "http://h/".toList then .ok ⟨[], [⟨"/a".toList, "x".toList⟩], []⟩
  else .ok ⟨[], [], []⟩

/-- `best-first` with zero keywords. -/
def cfgBest6 : CrawlConfig := ⟨.bestFirst, 2, 10, [], [], true⟩

/-- `bfs` with the same numeric configuration. -/
def cfgBfs6 : CrawlConfig := ⟨.bfs, 2, 10, [], [], true⟩

/-- DFS graph: the seed lists branch `/a` before branch `/b`; only `/a`
has a depth-2 child `/a2`. -/
def webDfsA : List Char → FetchResult := fun u =>
  if u = "http://h/".toList then
    .ok ⟨[], [⟨"/a".toList, []⟩, ⟨"/b".toList, []⟩], []⟩
  else if u = "http://h/a".toList then .ok ⟨[], [⟨"/a2".toList, []⟩], []⟩
  else .ok ⟨[], [], []⟩

/-- DFS graph: the seed lists `/a` before `/b`; only `/b` has a depth-2
child `/b2`. -/
def webDfsB : List Char → FetchResult := fun u =>
  if u = "http://h/".toList then
    .ok ⟨[], [⟨"/a".toList, []⟩, ⟨"/b".toList, []⟩], []⟩
  else if u = "http://h/b".toList then .ok ⟨[], [⟨"/b2".toList, []⟩], []⟩
  else .ok ⟨[], [], []⟩

/-- `dfs`, `max_depth=2`, `max_pages=10`. -/
def cfgDfs : CrawlConfig := ⟨.dfs, 2, 10, [], [], true⟩

/-- A seed that still carries a fragment: `http://h/p#f`. -/
def seedFrag : List Char := "http://h/p#f".toList

/-- The page at the fragment seed links to `p`, which normalizes to
`http://h/p` — a different string than the seed but the same normalized
URL. -/
def minWebFrag : List Char → MinFetchResult := fun u =>
  if u = "http://h/p#f".toList then .ok ⟨"x".toList, ["p".toList], []⟩
  else .ok ⟨"x".toList, [], []⟩

/-- Pattern scenario: seed `http://h/` (matching no pattern) linking to
`/docs/a` (matching `*docs*`) and `/x` (matching nothing). -/
def webPat : List Char → FetchResult := fun u =>
  if u = "http://h/".toList then
    .ok ⟨[], [⟨"/docs/a".toList, []⟩, ⟨"/x".toList, []⟩], []⟩
  else .ok ⟨[], [], []⟩

/-- `bfs` with the single translated pattern `*docs*`. -/
def cfgPat : CrawlConfig := ⟨.bfs, 2, 5, [], ["*docs*".toList], true⟩

/-- A mid-run state of the budget scenario, just before the failing fetch
of `http://h/a`. -/
def stBeforeFail : CrawlState :=
  ⟨[("http://h/a".toList, 1), ("http://h/b".toList, 1)],
   ["http://h/".toList], [⟨"http://h/".toList, 0, 0⟩], [], 1⟩

theorem sequential_deep_crawl_eq (cfg : CrawlConfig) (web : List Char → FetchResult)
    (seed : List Char) (fuel : Nat) :
    sequential_deep_crawl cfg web seed fuel =
      crawlLoop cfg web
        (if cfg.domainRestrict then (urlparse [] seed).netloc else [])
        fuel ⟨[(seed, 0)], [], [], [], 0⟩ := rfl

theorem deep_crawl_eq (maxD maxP : Nat) (web : List Char → MinFetchResult)
    (seed : List Char) (fuel : Nat) :
    deep_crawl maxD maxP web seed fuel =
      minLoop maxD maxP web (urlparse [] seed).netloc fuel
        ⟨[(seed, 0)], [], [], 0⟩ := rfl

/-! ### The claims -/

/-- C1 (counterexample): with the unnormalized fragment seed
`http://h/p#f`, the minimal crawler records two pages whose normalized
URLs coincide (`http://h/p` twice), so a normalized URL does appear more
than once across the recorded results of a run. -/
theorem C1_counterexample :
    ¬ (((deep_crawl 2 5 minWebFrag seedFrag 3).savedPages.map Prod.fst).map
        normalize_url).Nodup := by decide

/-- C1 (amended): in both crawl loops, no URL *string* — the key actually
used by the visited set — is recorded more than once in a run; the
normalized-URL level de-dup only fails through unnormalized keys such as
the seed. -/
theorem C1_amended (cfg : CrawlConfig) (web : List Char → FetchResult)
    (seed : List Char) (fuel : Nat)
    (maxD maxP : Nat) (mweb : List Char → MinFetchResult)
    (mseed : List Char) (mfuel : Nat) :
    (recordedUrls (sequential_deep_crawl cfg web seed fuel)).Nodup ∧
    ((deep_crawl maxD maxP mweb mseed mfuel).savedPages.map Prod.fst).Nodup := by
  constructor
  · exact (crawlLoop_recInv cfg web _ fuel _ ⟨by simp [recordedUrls], by simp [recordedUrls]⟩).1
  · exact (minLoop_recInv maxD maxP mweb _ mfuel _ ⟨by simp, by simp⟩).1

/-- C2 (counterexample): in `sequential_deep_crawl`, `pages_crawled` is
incremented only for successes, so in the budget scenario
(`max_pages = 2`) the run records two successes *and* one failure:
`len(successes) + len(failures) = 3 > max_pages`. -/
theorem C2_counterexample :
    ¬ ((sequential_deep_crawl cfgBudget webBudget seedH 10).successes.length +
        (sequential_deep_crawl cfgBudget webBudget seedH 10).failures.length ≤
        cfgBudget.maxPages) := by decide

/-- C2 (amended): `max_pages` bounds the number of *successful* pages in
`sequential_deep_crawl` (failed fetches are not counted), while in
`minimal_crawler.deep_crawl` it bounds the number of attempts and hence
also the saved pages. -/
theorem C2_amended (cfg : CrawlConfig) (web : List Char → FetchResult)
    (seed : List Char) (fuel : Nat)
    (maxD maxP : Nat) (mweb : List Char → MinFetchResult)
    (mseed : List Char) (mfuel : Nat) :
    (sequential_deep_crawl cfg web seed fuel).successes.length ≤ cfg.maxPages ∧
    (deep_crawl maxD maxP mweb mseed mfuel).pagesCrawled ≤ maxP ∧
    (deep_crawl maxD maxP mweb mseed mfuel).savedPages.length ≤ maxP := by
  rw [sequential_deep_crawl_eq, deep_crawl_eq]
  have h := crawlLoop_countInv cfg web
    (if cfg.domainRestrict then (urlparse [] seed).netloc else []) fuel
    ⟨[(seed, 0)], [], [], [], 0⟩ ⟨rfl, Nat.zero_le _⟩
  have hm := minLoop_countInv maxD maxP mweb (urlparse [] mseed).netloc mfuel
    ⟨[(mseed, 0)], [], [], 0⟩ ⟨Nat.zero_le _, Nat.zero_le _⟩
  obtain ⟨h1, h2⟩ := h
  obtain ⟨hm1, hm2⟩ := hm
  refine ⟨by omega, by omega, by omega⟩

/-- C3: every recorded page result — success or failure — of a sequential
crawl run has depth at most the configured `max_depth`: over-depth tasks
are discarded at pop time before any fetch. -/
theorem C3_depth_bound (cfg : CrawlConfig) (web : List Char → FetchResult)
    (seed : List Char) (fuel : Nat) :
    (∀ r ∈ (sequential_deep_crawl cfg web seed fuel).successes,
      r.depth ≤ cfg.maxDepth) ∧
    (∀ f ∈ (sequential_deep_crawl cfg web seed fuel).failures,
      f.depth ≤ cfg.maxDepth) :=
  crawlLoop_depthInv cfg web _ fuel _ ⟨by simp, by simp⟩

/-- C4 (counterexample): discovered links are *not* marked visited at
enqueue time: `/l`, discovered from both `/a` and `/b` before either copy
of it is dequeued, is enqueued twice, and the frontier holds two tasks for
the same URL. -/
theorem C4_counterexample :
    ¬ ((sequential_deep_crawl cfgDup webDup seedH 3).queue.map Prod.fst).Nodup := by
  decide

/-- C4 (amended): visited-set membership is added at *dequeue* time for
every task (seed and discovered links alike): at any point the visited set
is exactly the set of URLs recorded so far, so duplicate frontier entries
are possible but are discarded at pop time. -/
theorem C4_amended (cfg : CrawlConfig) (web : List Char → FetchResult)
    (seed : List Char) (fuel : Nat) :
    ∀ u, u ∈ (sequential_deep_crawl cfg web seed fuel).visited ↔
      u ∈ recordedUrls (sequential_deep_crawl cfg web seed fuel) :=
  crawlLoop_visited_iff_recorded cfg web _ fuel _ (by simp [recordedUrls])

/-- C5 (counterexample): in `sequential_deep_crawl`, a fragment-only href
is *not* rejected: in the five-link scenario the task
`http://example.com/#frag` is enqueued (at depth 1), so the scenario
enqueues three tasks, not two. -/
theorem C5_counterexample :
    ("http://example.com/#frag".toList, 1) ∈
      (sequential_deep_crawl cfg5 web5 seedEx 1).queue := by decide

/-- C5 (amended): in `minimal_crawler.deep_crawl` the scenario behaves as
specified — exactly the absolute forms of `/a` and `/b` are enqueued at
depth 1 — while `sequential_deep_crawl` additionally enqueues the
resolved fragment link (only the empty href is always dropped there; the
off-domain and `javascript:` links are dropped by the domain filter). -/
theorem C5_amended :
    (deep_crawl 1 5 minWeb5 seedEx 1).queue =
      [("http://example.com/a".toList, 1), ("http://example.com/b".toList, 1)] ∧
    (sequential_deep_crawl cfg5 web5 seedEx 1).queue =
      [("http://example.com/a".toList, 1), ("http://example.com/b".toList, 1),
       ("http://example.com/#frag".toList, 1)] := by
  constructor
  · decide
  · decide

/-- C6 (counterexample): with zero keywords, a best-first run does *not*
fetch the same pages as a bfs run with the same configuration — on the
one-link web, bfs fetches the seed and `/a` while best-first fetches only
the seed. -/
theorem C6_counterexample :
    (sequential_deep_crawl cfgBest6 web6 seedH 10).successes ≠
      (sequential_deep_crawl cfgBfs6 web6 seedH 10).successes := by decide

/-- C6 (amended): with the best-first strategy and zero configured
keywords the `if/elif` queueing chain has no matching branch, so *no*
discovered link is ever enqueued: the run records exactly the seed and
nothing else (unlike bfs, which follows links). -/
theorem C6_amended (cfg : CrawlConfig) (web : List Char → FetchResult)
    (seed : List Char) (fuel : Nat)
    (hs : cfg.strategy = Strategy.bestFirst) (hk : cfg.keywords = [])
    (hf : 1 ≤ fuel) (hp : 1 ≤ cfg.maxPages) :
    recordedUrls (sequential_deep_crawl cfg web seed fuel) = [seed] := by
  obtain ⟨f, rfl⟩ : ∃ f, fuel = f + 1 := ⟨fuel - 1, by omega⟩
  rw [sequential_deep_crawl_eq, crawlLoop]
  dsimp only
  rw [if_pos (by omega : (0 : Nat) < cfg.maxPages)]
  rw [if_neg (by simp)]
  cases hw : web seed with
  | ok page =>
    dsimp only
    have hq : (if 0 < cfg.maxDepth then
        List.foldl (enqueueLink cfg
            (if cfg.domainRestrict = true then (urlparse [] seed).netloc else [])
            seed 0 ([] ++ [seed])) []
          (page.linksInternal ++
            if cfg.domainRestrict = true then [] else page.linksExternal)
      else []) = [] := by
      by_cases hd : 0 < cfg.maxDepth
      · rw [if_pos hd]
        exact foldl_enqueueLink_bestFirst_no_keywords cfg hs hk _ _ _ _ _ _
      · rw [if_neg hd]
    rw [hq, crawlLoop_queue_nil _ _ _ _ _ rfl]
    simp [recordedUrls]
  | failed msg =>
    dsimp only
    rw [crawlLoop_queue_nil _ _ _ _ _ rfl]
    simp [recordedUrls]
  | raised msg =>
    dsimp only
    rw [crawlLoop_queue_nil _ _ _ _ _ rfl]
    simp [recordedUrls]

/-- Witness for C6 (amended): on the one-link web with best-first and no
keywords, the run records exactly the seed. -/
theorem C6_amended_witness :
    cfgBest6.strategy = Strategy.bestFirst ∧ cfgBest6.keywords = [] ∧
    (1 : Nat) ≤ 10 ∧ 1 ≤ cfgBest6.maxPages ∧
    recordedUrls (sequential_deep_crawl cfgBest6 web6 seedH 10) = [seedH] :=
  ⟨rfl, rfl, by decide, by decide,
   C6_amended cfgBest6 web6 seedH 10 rfl rfl (by decide) (by decide)⟩

/-- C7 (counterexample): under dfs, with the seed listing branch `/a`
before `/b`, the depth-2 page `/a2` reachable only through `/a` is *not*
fetched before the depth-1 page `/b`: head insertion reverses sibling
order, so the fetch order is seed, `/b`, `/a`, `/a2`. -/
theorem C7_counterexample :
    ((sequential_deep_crawl cfgDfs webDfsA seedH 10).successes.map PageRec.url =
      [seedH, "http://h/b".toList, "http://h/a".toList, "http://h/a2".toList]) ∧
    ¬ (((sequential_deep_crawl cfgDfs webDfsA seedH 10).successes.map
          PageRec.url).indexOf "http://h/a2".toList <
        ((sequential_deep_crawl cfgDfs webDfsA seedH 10).successes.map
          PageRec.url).indexOf "http://h/b".toList) := by
  constructor
  · decide
  · decide

/-- C7 (amended): under dfs the *last*-listed branch is fully descended
before its siblings: with the seed listing `/a` before `/b`, the depth-2
page `/b2` reachable only through `/b` is fetched before the depth-1 page
`/a`. -/
theorem C7_amended :
    ((sequential_deep_crawl cfgDfs webDfsB seedH 10).successes.map PageRec.url =
      [seedH, "http://h/b".toList, "http://h/b2".toList, "http://h/a".toList]) ∧
    ((sequential_deep_crawl cfgDfs webDfsB seedH 10).successes.map
        PageRec.url).indexOf "http://h/b2".toList <
      ((sequential_deep_crawl cfgDfs webDfsB seedH 10).successes.map
        PageRec.url).indexOf "http://h/a".toList := by
  constructor
  · decide
  · decide

/-- C8 (counterexample): the normalizer is not idempotent on scheme-less
URLs: normalizing `example.com/a` yields `://example.com/a`, and
normalizing that yields `://://example.com/a`. -/
theorem C8_counterexample :
    normalize_url (normalize_url "example.com/a".toList) ≠
      normalize_url "example.com/a".toList := by decide

/-- C8 (amended): the normalizer is idempotent on every URL whose parse
has a non-empty scheme and a non-empty host — in particular on every
absolute http(s) URL the crawler feeds it. -/
theorem C8_amended (u : List Char)
    (hs : (urlparse [] u).scheme ≠ []) (hn : (urlparse [] u).netloc ≠ []) :
    normalize_url (normalize_url u) = normalize_url u :=
  normalize_url_idem u hs hn

/-- Witness for C8 (amended) at `http://example.com/a?q#f`. -/
theorem C8_amended_witness :
    ((urlparse [] "http://example.com/a?q#f".toList).scheme ≠ [] ∧
     (urlparse [] "http://example.com/a?q#f".toList).netloc ≠ []) ∧
    normalize_url (normalize_url "http://example.com/a?q#f".toList) =
      normalize_url "http://example.com/a?q#f".toList :=
  ⟨⟨by decide, by decide⟩,
   C8_amended "http://example.com/a?q#f".toList (by decide) (by decide)⟩

/-- C9: when the fetch of a dequeued, unvisited, in-depth task reports
failure or raises, exactly one failure record `{url, error, depth}` is
appended, no links are enqueued (the queue continues with the remaining
frontier), `pages_crawled` is unchanged, and the loop proceeds with the
next frontier item. -/
theorem C9_failure_isolated (cfg : CrawlConfig) (web : List Char → FetchResult)
    (bd : List Char) (fuel : Nat) (st : CrawlState)
    (cu : List Char) (cd : Nat) (rest : List (List Char × Nat))
    (hq : st.queue = (cu, cd) :: rest) (hb : st.pagesCrawled < cfg.maxPages)
    (hv : cu ∉ st.visited) (hd : cd ≤ cfg.maxDepth) :
    (∀ msg, web cu = FetchResult.failed msg →
      crawlLoop cfg web bd (fuel + 1) st =
        crawlLoop cfg web bd fuel
          ⟨rest, st.visited ++ [cu], st.successes,
           st.failures ++ [⟨cu, errOr msg, cd⟩], st.pagesCrawled⟩) ∧
    (∀ msg, web cu = FetchResult.raised msg →
      crawlLoop cfg web bd (fuel + 1) st =
        crawlLoop cfg web bd fuel
          ⟨rest, st.visited ++ [cu], st.successes,
           st.failures ++ [⟨cu, msg, cd⟩], st.pagesCrawled⟩) := by
  constructor
  · intro msg hw
    rw [crawlLoop, hq]
    dsimp only
    rw [if_pos hb, if_neg (by push_neg; exact ⟨hv, by omega⟩), hw]
  · intro msg hw
    rw [crawlLoop, hq]
    dsimp only
    rw [if_pos hb, if_neg (by push_neg; exact ⟨hv, by omega⟩), hw]

/-- Witness for C9 at the budget scenario's failing fetch of
`http://h/a`. -/
theorem C9_failure_isolated_witness :
    stBeforeFail.queue = ("http://h/a".toList, 1) :: [("http://h/b".toList, 1)] ∧
    stBeforeFail.pagesCrawled < cfgBudget.maxPages ∧
    "http://h/a".toList ∉ stBeforeFail.visited ∧
    (1 : Nat) ≤ cfgBudget.maxDepth ∧
    webBudget "http://h/a".toList = FetchResult.failed "boom".toList ∧
    crawlLoop cfgBudget webBudget "h".toList 2 stBeforeFail =
      crawlLoop cfgBudget webBudget "h".toList 1
        ⟨[("http://h/b".toList, 1)], stBeforeFail.visited ++ ["http://h/a".toList],
         stBeforeFail.successes,
         stBeforeFail.failures ++ [⟨"http://h/a".toList, errOr "boom".toList, 1⟩],
         stBeforeFail.pagesCrawled⟩ :=
  ⟨by decide, by decide, by decide, by decide, by decide,
   (C9_failure_isolated cfgBudget webBudget "h".toList 1 stBeforeFail
      "http://h/a".toList 1 [("http://h/b".toList, 1)] rfl (by decide)
      (by decide) (by decide)).1 "boom".toList (by decide)⟩

/-- C10: the seed task bypasses the filter chain — it is dequeued and
fetched (hence recorded) for *every* configuration with a positive page
budget, whether or not it matches any configured pattern — while every
other recorded page passed the pattern filter when patterns are
configured. -/
theorem C10_seed_unfiltered (cfg : CrawlConfig) (web : List Char → FetchResult)
    (seed : List Char) (fuel : Nat) (hf : 1 ≤ fuel) (hp : 1 ≤ cfg.maxPages) :
    seed ∈ recordedUrls (sequential_deep_crawl cfg web seed fuel) ∧
    ∀ u ∈ recordedUrls (sequential_deep_crawl cfg web seed fuel),
      u = seed ∨ cfg.patterns = [] ∨ cfg.patterns.any (fun p => reMatch p u) = true := by
  constructor
  · obtain ⟨f, rfl⟩ : ∃ f, fuel = f + 1 := ⟨fuel - 1, by omega⟩
    rw [sequential_deep_crawl_eq, crawlLoop]
    dsimp only
    rw [if_pos (by omega : (0 : Nat) < cfg.maxPages), if_neg (by simp)]
    cases hw : web seed with
    | ok page =>
      dsimp only
      apply crawlLoop_recorded_mono
      simp [recordedUrls]
    | failed msg =>
      dsimp only
      apply crawlLoop_recorded_mono
      simp [recordedUrls]
    | raised msg =>
      dsimp only
      apply crawlLoop_recorded_mono
      simp [recordedUrls]
  · rw [sequential_deep_crawl_eq]
    refine (crawlLoop_patInv cfg web _ seed fuel ⟨[(seed, 0)], [], [], [], 0⟩
      ⟨?_, by simp [recordedUrls]⟩).2
    intro t ht
    simp only [List.mem_singleton] at ht
    subst ht
    exact Or.inl rfl

/-- Witness for C10: with the pattern `*docs*` configured (which the seed
`http://h/` does not match), the seed is still fetched and recorded. -/
theorem C10_seed_unfiltered_witness :
    (1 : Nat) ≤ 10 ∧ 1 ≤ cfgPat.maxPages ∧
    seedH ∈ recordedUrls (sequential_deep_crawl cfgPat webPat seedH 10) :=
  ⟨by decide, by decide,
   (C10_seed_unfiltered cfgPat webPat seedH 10 (by decide) (by decide)).1⟩
